import Mathlib

/-!
Verification of the resolution-output core of the `uv` resolver
(`crates/uv-resolver/src/resolution.rs` and
`crates/uv-resolver/src/pubgrub/package.rs`).

The Rust code is shallowly embedded: hash maps become functions into
`Option`, the petgraph graph becomes explicit node/edge lists, fallible
paths (`Result` propagation via `?`) and panics (`expect`, `panic!`,
`unreachable!`) become an `Except` with two distinct error constructors so
that a returned `ResolveError` and a process abort stay distinguishable.
Collaborator types that live outside the two embedded source files
(`distribution_types`, `pep508_rs`, the resolver's `Resolution` type, the
in-memory index) are modelled from the specification where noted.
-/

namespace UvRes

/-- Package names, modelled as strings (uv's `PackageName` is a normalized
string). -/
abbrev PackageName := String

/-- Extra names, modelled as strings. -/
abbrev ExtraName := String

/-- `pep440_rs::Version`, modelled as a natural number: the code only needs
decidable equality, a total order (for nothing here) and display. -/
abbrev Version := Nat

/-- One entry of `pypi_types::Hashes`, modelled as a natural number: the code
only sorts hash lists (`sort_unstable`) and renders them. -/
abbrev Hash := Nat

/-- Byte-wise lexicographic comparison of character lists (the order Rust
uses on `String` keys), via the characters' scalar values. -/
def charsLe : List Char → List Char → Bool
  | [], _ => true
  | _ :: _, [] => false
  | a :: as, b :: bs => if a.toNat = b.toNat then charsLe as bs else a.toNat < b.toNat

/-- Lexicographic order on strings, used wherever the Rust code sorts by a
string key. -/
def strLe (a b : String) : Bool :=
  charsLe a.data b.data

/-- The `strLe` order as a relation, for use with `List.insertionSort`. -/
def StrLE (a b : String) : Prop := strLe a b = true

instance : DecidableRel StrLE := fun a b => by
  unfold StrLE; infer_instance

/-- `pep508_rs::VerbatimUrl`: a URL that keeps the user-visible text
(`given`) alongside the actual fetch target (`target`).  Modelled from the
spec: the crate is external; `valid` abstracts whether
`Dist::from_url` succeeds on it (URL parse failures). -/
structure VerbatimUrl where
  given : String
  target : String
  valid : Bool
deriving DecidableEq

/-- `distribution_types::LocalEditable`.  Modelled from the spec: the crate
is external; `verbatim()` returns the user-visible URL text and `valid`
abstracts whether `Dist::from_editable` succeeds (editable build failures). -/
structure LocalEditable where
  url : VerbatimUrl
  valid : Bool
deriving DecidableEq

/-- `LocalEditable::verbatim`. -/
def LocalEditable.verbatim (e : LocalEditable) : String := e.url.given

/-- `pep508_rs::MarkerValueVersion`: the version-valued environment marker
parameters. -/
inductive MarkerValueVersion
  | implementationVersion
  | pythonFullVersion
  | pythonVersion
deriving DecidableEq

/-- `pep508_rs::MarkerValueString`: the string-valued environment marker
parameters. -/
inductive MarkerValueString
  | implementationName
  | osName
  | platformMachine
  | platformPythonImplementation
  | platformRelease
  | platformSystem
  | platformVersion
  | sysPlatform
deriving DecidableEq

/-- `pep508_rs::MarkerValue`: one side of a marker expression. -/
inductive MarkerValue
  | markerEnvVersion (v : MarkerValueVersion)
  | markerEnvString (s : MarkerValueString)
  | extra
  | quotedString (s : String)
deriving DecidableEq

/-- `pep508_rs::MarkerOperator` (only the operators the embedded code
constructs or compares are distinguished). -/
inductive MarkerOperator
  | equal
  | notEqual
  | greaterEqual
deriving DecidableEq

/-- `pep508_rs::MarkerExpression`: `l_value operator r_value`. -/
structure MarkerExpression where
  lValue : MarkerValue
  operator : MarkerOperator
  rValue : MarkerValue
deriving DecidableEq

/-- `pep508_rs::MarkerTree`. -/
inductive MarkerTree
  | expression (e : MarkerExpression)
  | and (l : List MarkerTree)
  | or (l : List MarkerTree)

/-- `pep508_rs::MarkerTree::or(&mut self, other)`: push into an existing
disjunction, otherwise wrap both sides in one.  Modelled from the spec:
the crate is external; the builder only ever applies it to trees rooted at
`Or`. -/
def MarkerTree.orInto : MarkerTree → MarkerTree → MarkerTree
  | .or l, m => .or (l ++ [m])
  | t, m => .or [t, m]

/-- Evaluation of a marker tree, parametric in the valuation of atomic
expressions (pep508 semantics is compositional: `And` is conjunction, `Or`
is disjunction). -/
def MarkerTree.evalWith (f : MarkerExpression → Bool) : MarkerTree → Bool
  | .expression e => f e
  | .and l => goAll l
  | .or l => goAny l
where
  goAll : List MarkerTree → Bool
    | [] => true
    | t :: ts => (t.evalWith f && goAll ts)
  goAny : List MarkerTree → Bool
    | [] => false
    | t :: ts => (t.evalWith f || goAny ts)

/-- `distribution_types::Dist` / `ResolvedDist`: the pinned distribution
chosen for a package.  Modelled from the spec: a tagged union of registry
artifact, URL artifact and editable source. -/
inductive Dist
  | registry (name : PackageName) (version : Version)
  | url (name : PackageName) (url : VerbatimUrl)
  | editable (name : PackageName) (e : LocalEditable)
deriving DecidableEq

/-- `Dist::name`. -/
def Dist.nameOf : Dist → PackageName
  | .registry n _ => n
  | .url n _ => n
  | .editable n _ => n

/-- `distribution_types::VersionOrUrl` (borrowed form). -/
inductive VersionOrUrl
  | version (v : Version)
  | url (u : VerbatimUrl)
deriving DecidableEq

/-- `Dist::version_or_url`. -/
def Dist.versionOrUrl : Dist → VersionOrUrl
  | .registry _ v => .version v
  | .url _ u => .url u
  | .editable _ e => .url e.url

/-- `Verbatim` rendering of `VersionOrUrl`.  Modelled from the spec:
`==<version>` for registry pins, ` @ <url>` for URL pins. -/
def VersionOrUrl.verbatim : VersionOrUrl → String
  | .version v => "==" ++ toString v
  | .url u => " @ " ++ u.given

/-- `Verbatim` rendering of a distribution.  Modelled from the spec:
concrete distributions render as `<name>==<version>` or `<name> @ <url>`. -/
def Dist.verbatim (d : Dist) : String :=
  d.nameOf ++ d.versionOrUrl.verbatim

/-- `ResolvedNode`: the payload of one graph node. -/
structure ResolvedNode where
  dist : Dist
  markers : Option MarkerTree

/-- A `pubgrub::range::Range<Version>`, modelled by its denotation (the set
of versions it contains); the builder only needs `Range::empty` and
`Range::union`. -/
def RangeV := Version → Bool

/-- `Range::empty`. -/
def RangeV.emptyR : RangeV := fun _ => false

/-- `Range::union`. -/
def RangeV.unionR (r s : RangeV) : RangeV := fun v => r v || s v

/-- One directed petgraph edge: source node index, target node index,
weight. -/
abbrev GEdge := Nat × Nat × RangeV

/-- The petgraph `Graph<ResolvedNode, Range<Version>, Directed>`, modelled
as a node list (node index = position) and an edge list (edge index =
position). -/
structure Graph where
  nodes : List ResolvedNode
  edges : List GEdge

/-- Index of the first edge from `a` to `b`, if any (petgraph
`find_edge`). -/
def Graph.findEdgeIdx (g : Graph) (a b : Nat) : Option Nat :=
  g.edges.findIdx? (fun e => e.1 == a && e.2.1 == b)

/-- Replace the weight of the edge at index `i`. -/
def setWeightAt : List GEdge → Nat → RangeV → List GEdge
  | [], _, _ => []
  | e :: es, 0, w => (e.1, e.2.1, w) :: es
  | e :: es, n + 1, w => e :: setWeightAt es n w

/-- The weight of the edge at index `i` (empty if out of range; the builder
only reads indices it was just handed by `updateEdge`). -/
def Graph.weightAt (g : Graph) (i : Nat) : RangeV :=
  match g.edges.get? i with
  | some e => e.2.2
  | none => RangeV.emptyR

/-- petgraph `Graph::update_edge`: if an edge `a → b` exists, overwrite its
weight with `w`; otherwise append a new edge.  Returns the edge index. -/
def Graph.updateEdge (g : Graph) (a b : Nat) (w : RangeV) : Graph × Nat :=
  match g.findEdgeIdx a b with
  | some i => ({ g with edges := setWeightAt g.edges i w }, i)
  | none => ({ g with edges := g.edges ++ [(a, b, w)] }, g.edges.length)

/-- `petgraph[edge] = petgraph[edge].union(range)`. -/
def Graph.unionIntoEdge (g : Graph) (i : Nat) (r : RangeV) : Graph :=
  { g with edges := setWeightAt g.edges i ((g.weightAt i).unionR r) }

/-- `pubgrub::package::PubGrubPython` (from `pubgrub/package.rs`). -/
inductive PubGrubPython
  | installed
  | target

/-- `pubgrub::package::PubGrubPackage` (from `pubgrub/package.rs`): root
sentinel, Python sentinel, or a concrete package with optional extra,
marker and URL. -/
inductive PubGrubPackage
  | root (name : Option PackageName)
  | python (k : PubGrubPython)
  | package (name : PackageName) (extra : Option ExtraName)
      (marker : Option MarkerTree) (url : Option VerbatimUrl)

/-- `PubGrubPackage::name` (from `pubgrub/package.rs`). -/
def PubGrubPackage.nameOf : PubGrubPackage → String
  | .root none => "<NONE>"
  | .root (some n) => n
  | .python _ => "<PYTHON>"
  | .package n _ _ _ => n

/-- `distribution_types::PackageId`: registry ids from name and version,
URL ids from the raw URL string.  Modelled from the spec. -/
inductive PackageId
  | registry (name : PackageName) (version : Version)
  | url (raw : String)
deriving DecidableEq

/-- Render a `PackageId` for panic messages. -/
def PackageId.render : PackageId → String
  | .registry n v => n ++ "==" ++ toString v
  | .url raw => raw

/-- A requirement as far as this core consumes it: a dependency name and an
optional marker (`pep508_rs::Requirement`, unused fields omitted). -/
structure Requirement where
  name : PackageName
  marker : Option MarkerTree

/-- Per-distribution metadata as consulted by the builder and the marker
synthesis: declared extras and declared requirements. -/
structure Metadata where
  providesExtras : List ExtraName
  requiresDist : List Requirement

/-- `VersionsResponse`: the index's answer for one package name; `found`
carries the version map (`hashes(version)` per version). -/
inductive VersionsResponse
  | found (versionMap : Version → List Hash)
  | notFound

/-- `InMemoryIndex`: package version listings, per-distribution metadata
and URL redirects, all read-only. -/
structure InMemoryIndex where
  packages : PackageName → Option VersionsResponse
  distributions : PackageId → Option Metadata
  redirects : VerbatimUrl → Option String

/-- `Preferences::match_hashes` (from a prior lockfile). -/
structure Preferences where
  matchHashes : PackageName → Version → Option (List Hash)

/-- `Editables::get`: editable descriptor and its metadata, per name. -/
def Editables := PackageName → Option (LocalEditable × Metadata)

/-- The ordered pair of names on a dependency entry
(`names.from`/`names.to` in the source). -/
structure DepNames where
  fromName : PackageName
  toName : PackageName
deriving DecidableEq

/-- The solver's fixed point (`crate::resolver::Resolution`).  Modelled
from the spec: the type is external to the embedded files.  `packages`
maps each identity to its chosen versions with per-choice marker;
`dependencies` is keyed by the ordered name pair, carrying the requested
ranges (the `range.to` fields of the source's iteration); `pins` is the
pin table. -/
structure Resolution where
  packages : List (PubGrubPackage × List (Version × Option MarkerTree))
  pins : PackageName → Version → Option Dist
  dependencies : List (DepNames × List RangeV)

/-- The build error channel: a returned `ResolveError`
(`Result::Err`, surfaced to the caller) or a Rust panic
(`expect` / `panic!` / `unreachable!`, which aborts instead of
returning). -/
inductive BuildErr
  | resolve (msg : String)
  | assertionFailure (msg : String)
deriving DecidableEq

/-- `Dist::from_editable`.  Modelled from the spec: external constructor
that can fail while materializing the editable; on success the
distribution is the editable source for `name`. -/
def distFromEditable (name : PackageName) (e : LocalEditable) : Except BuildErr Dist :=
  if e.valid then .ok (.editable name e)
  else .error (.resolve ("failed to build editable: " ++ e.url.given))

/-- `Dist::from_url`.  Modelled from the spec: external constructor that
can fail parsing the URL; on success the distribution is the URL artifact
for `name`. -/
def distFromUrl (name : PackageName) (u : VerbatimUrl) : Except BuildErr Dist :=
  if u.valid then .ok (.url name u)
  else .error (.resolve ("unsupported URL: " ++ u.given))

/-- `crate::redirect::apply_redirect`.  Modelled from the spec: replace the
fetch target with the precise form while preserving the user-visible
text. -/
def applyRedirect (u : VerbatimUrl) (precise : String) : VerbatimUrl :=
  { u with target := precise }

/-- URL redirection as performed while materializing a URL pin
(`index.redirects.get(url).map_or_else(...)`). -/
def redirected (index : InMemoryIndex) (url : VerbatimUrl) : VerbatimUrl :=
  match index.redirects url with
  | none => url
  | some precise => applyRedirect url precise

/-- `Diagnostic`: the non-fatal problems attached to the graph. -/
inductive Diagnostic
  | missingExtra (dist : Dist) (extra : ExtraName)
deriving DecidableEq

/-- `Diagnostic::message`. -/
def Diagnostic.message : Diagnostic → String
  | .missingExtra dist extra =>
      "The package `" ++ dist.verbatim ++ "` does not have an extra named `" ++ extra ++ "`."

/-- `Diagnostic::includes`. -/
def Diagnostic.includes : Diagnostic → PackageName → Bool
  | .missingExtra dist _, name => name == dist.nameOf

/-- Overwrite one key of a finite map modelled as a function
(`HashMap::insert`). -/
def mapInsert {κ β : Type} [DecidableEq κ] (m : κ → Option β) (k : κ) (v : β) : κ → Option β :=
  fun k' => if k' = k then some v else m k'

/-- The mutable state of `ResolutionGraph::from_state` while it walks the
solver output: the graph under construction, the three side tables, the
`name → NodeIndex` map and the accumulated diagnostics. -/
structure BuildState where
  g : Graph
  hashes : PackageName → Option (List Hash)
  extras : PackageName → Option (List ExtraName)
  markers : PackageName × Version → Option MarkerTree
  inverse : PackageName → Option Nat
  diagnostics : List Diagnostic

/-- The empty initial build state. -/
def initState : BuildState :=
  { g := { nodes := [], edges := [] }
    hashes := fun _ => none
    extras := fun _ => none
    markers := fun _ => none
    inverse := fun _ => none
    diagnostics := [] }

/-- Hash resolution for one `(name, version)` (the repeated block in
`from_state`): preferences verbatim, else the index's version map sorted,
else leave the previous entry. -/
def hashStep (index : InMemoryIndex) (preferences : Preferences)
    (name : PackageName) (v : Version) (old : Option (List Hash)) : Option (List Hash) :=
  match preferences.matchHashes name v with
  | some h => some h
  | none =>
    match index.packages name with
    | some (.found vm) => some (List.insertionSort (· ≤ ·) (vm v))
    | _ => old

/-- Apply `hashStep` at one key of the hashes table. -/
def hashUpdate (index : InMemoryIndex) (preferences : Preferences)
    (name : PackageName) (v : Version)
    (hs : PackageName → Option (List Hash)) : PackageName → Option (List Hash) :=
  fun k => if k = name then hashStep index preferences name v (hs k) else hs k

/-- Append one node to the graph, returning its index (petgraph
`add_node`). -/
def Graph.addNode (g : Graph) (n : ResolvedNode) : Graph × Nat :=
  ({ g with nodes := g.nodes ++ [n] }, g.nodes.length)

/-- One iteration of the node-materialization loop of
`ResolutionGraph::from_state`, for a single `(package, version)` pair (the
per-version marker of the inner loop is ignored by the source, which binds
it as `_markers`). -/
def processEntry (index : InMemoryIndex) (preferences : Preferences)
    (editables : Editables) (pins : PackageName → Version → Option Dist)
    (st : BuildState) (pkg : PubGrubPackage) (version : Version) :
    Except BuildErr BuildState :=
  match pkg with
  | .package name none (some marker) none =>
      let old := (st.markers (name, version)).getD (.or [])
      .ok { st with markers := mapInsert st.markers (name, version) (old.orInto marker) }
  | .package name none none none => do
      let pinned ←
        match editables name with
        | some (e, _) => distFromEditable name e
        | none =>
          match pins name version with
          | some d => .ok d
          | none => .error (.assertionFailure "Every package should be pinned")
      let (g', _) := st.g.addNode { dist := pinned, markers := none }
      .ok { st with
              g := g'
              hashes := hashUpdate index preferences name version st.hashes
              inverse := mapInsert st.inverse name st.g.nodes.length }
  | .package name none none (some url) => do
      let pinned ←
        match editables name with
        | some (e, _) => distFromEditable name e
        | none => distFromUrl name (redirected index url)
      let (g', _) := st.g.addNode { dist := pinned, markers := none }
      .ok { st with
              g := g'
              hashes := hashUpdate index preferences name version st.hashes
              inverse := mapInsert st.inverse name st.g.nodes.length }
  | .package name (some extra) none none =>
      let pid := PackageId.registry name version
      match editables name with
      | some (e, md) =>
        if extra ∈ md.providesExtras then
          .ok { st with
                  extras := mapInsert st.extras name (((st.extras name).getD []) ++ [extra]) }
        else do
          let pinned ← distFromEditable name e
          .ok { st with diagnostics := st.diagnostics ++ [.missingExtra pinned extra] }
      | none =>
        match index.distributions pid with
        | none =>
            .error (.assertionFailure ("Every package should have metadata: " ++ pid.render))
        | some md =>
          if extra ∈ md.providesExtras then
            .ok { st with
                    extras := mapInsert st.extras name (((st.extras name).getD []) ++ [extra]) }
          else
            match pins name version with
            | none => .error (.assertionFailure ("Every package should be pinned: " ++ name))
            | some pinned =>
                .ok { st with diagnostics := st.diagnostics ++ [.missingExtra pinned extra] }
  | .package name (some extra) none (some url) =>
      let pid := PackageId.url url.target
      match editables name with
      | some (e, md) =>
        if extra ∈ md.providesExtras then
          .ok { st with
                  extras := mapInsert st.extras name (((st.extras name).getD []) ++ [extra]) }
        else do
          let pinned ← distFromEditable name e
          .ok { st with diagnostics := st.diagnostics ++ [.missingExtra pinned extra] }
      | none =>
        match index.distributions pid with
        | none =>
            .error (.assertionFailure ("Every package should have metadata: " ++ pid.render))
        | some md =>
          if extra ∈ md.providesExtras then
            .ok { st with
                    extras := mapInsert st.extras name (((st.extras name).getD []) ++ [extra]) }
          else do
            let pinned ← distFromUrl name (redirected index url)
            .ok { st with diagnostics := st.diagnostics ++ [.missingExtra pinned extra] }
  | _ => .ok st

/-- The inner loop of pass A: all chosen versions of one package
identity. -/
def processPackage (index : InMemoryIndex) (preferences : Preferences)
    (editables : Editables) (pins : PackageName → Version → Option Dist)
    (st : BuildState) (entry : PubGrubPackage × List (Version × Option MarkerTree)) :
    Except BuildErr BuildState :=
  entry.2.foldlM (fun s v => processEntry index preferences editables pins s entry.1 v.1) st

/-- Pass A of `from_state`: node materialization over the whole solver
output. -/
def buildNodes (index : InMemoryIndex) (preferences : Preferences)
    (editables : Editables) (pins : PackageName → Version → Option Dist)
    (packages : List (PubGrubPackage × List (Version × Option MarkerTree))) :
    Except BuildErr BuildState :=
  packages.foldlM (processPackage index preferences editables pins) initState

/-- One iteration of pass B: look both endpoints up in the `name →
NodeIndex` map (a missing key panics, as Rust map indexing does),
`update_edge` with the empty range, then union every requested range into
the edge. -/
def addDepEntry (inv : PackageName → Option Nat) (g : Graph)
    (entry : DepNames × List RangeV) : Except BuildErr Graph :=
  match inv entry.1.fromName with
  | none => .error (.assertionFailure "no entry found for key")
  | some fi =>
    match inv entry.1.toName with
    | none => .error (.assertionFailure "no entry found for key")
    | some ti =>
      let (g1, e) := g.updateEdge fi ti RangeV.emptyR
      .ok (entry.2.foldl (fun gg r => gg.unionIntoEdge e r) g1)

/-- Pass B of `from_state`: edge installation. -/
def addEdges (inv : PackageName → Option Nat) (g : Graph)
    (deps : List (DepNames × List RangeV)) : Except BuildErr Graph :=
  deps.foldlM (addDepEntry inv) g

/-- The finished pinned resolution graph (`ResolutionGraph`). -/
structure ResolutionGraph where
  petgraph : Graph
  hashes : PackageName → Option (List Hash)
  extras : PackageName → Option (List ExtraName)
  markers : PackageName × Version → Option MarkerTree
  editables : Editables
  diagnostics : List Diagnostic

/-- `ResolutionGraph::from_state`: build the pinned graph from the solver's
fixed point. -/
def fromState (index : InMemoryIndex) (preferences : Preferences)
    (editables : Editables) (resolution : Resolution) :
    Except BuildErr ResolutionGraph := do
  let st ← buildNodes index preferences editables resolution.pins resolution.packages
  let g ← addEdges st.inverse st.g resolution.dependencies
  .ok { petgraph := g
        hashes := st.hashes
        extras := st.extras
        markers := st.markers
        editables := editables
        diagnostics := st.diagnostics }

/-- `ResolutionGraph::len`. -/
def ResolutionGraph.lenOf (r : ResolutionGraph) : Nat := r.petgraph.nodes.length

/-- `ResolutionGraph::contains`. -/
def ResolutionGraph.containsName (r : ResolutionGraph) (name : PackageName) : Bool :=
  r.petgraph.nodes.any (fun n => n.dist.nameOf == name)

/-! ## Marker synthesis (`ResolutionGraph::marker_tree`) -/

/-- The `MarkerParam` enum local to `marker_tree`: the tracked subset of
marker values. -/
inductive MarkerParam
  | version (v : MarkerValueVersion)
  | string (s : MarkerValueString)
deriving DecidableEq

/-- `FxHashSet::insert`, on a set modelled as a duplicate-free list. -/
def insertParam (s : List MarkerParam) (p : MarkerParam) : List MarkerParam :=
  if p ∈ s then s else s ++ [p]

/-- `add_marker_value`: record the value if it is an environment parameter;
`extra` and quoted strings are ignored. -/
def addValueParam (v : MarkerValue) (s : List MarkerParam) : List MarkerParam :=
  match v with
  | .markerEnvVersion vv => insertParam s (.version vv)
  | .markerEnvString vs => insertParam s (.string vs)
  | _ => s

mutual

/-- `add_marker_params_from_tree`. -/
def addParamsTree : MarkerTree → List MarkerParam → List MarkerParam
  | .expression e, s => addValueParam e.rValue (addValueParam e.lValue s)
  | .and l, s => addParamsList l s
  | .or l, s => addParamsList l s

/-- The inner loop of `add_marker_params_from_tree` over a subtree list. -/
def addParamsList : List MarkerTree → List MarkerParam → List MarkerParam
  | [], s => s
  | t :: ts, s => addParamsList ts (addParamsTree t s)

end

/-- Whether a marker value is exactly the given environment parameter. -/
def valueHasParam (p : MarkerParam) (v : MarkerValue) : Bool :=
  match p, v with
  | .version a, .markerEnvVersion b => a = b
  | .string a, .markerEnvString b => a = b
  | _, _ => false

mutual

/-- Whether an environment parameter occurs anywhere in a marker tree. -/
def paramOccurs (p : MarkerParam) : MarkerTree → Bool
  | .expression e => valueHasParam p e.lValue || valueHasParam p e.rValue
  | .and l => paramOccursList p l
  | .or l => paramOccursList p l

/-- `paramOccurs` over a subtree list. -/
def paramOccursList (p : MarkerParam) : List MarkerTree → Bool
  | [] => false
  | t :: ts => paramOccurs p t || paramOccursList p ts

end

/-- `pep508_rs::MarkerEnvironment`, reduced to the two lookups the code
performs. -/
structure MarkerEnvironment where
  getVersion : MarkerValueVersion → Version
  getString : MarkerValueString → String

/-- The equality conjunct `marker_tree` emits for one seen parameter:
`param == "<current value>"`. -/
def mkConj (env : MarkerEnvironment) : MarkerParam → MarkerTree
  | .version v =>
      .expression
        { lValue := .markerEnvVersion v
          operator := .equal
          rValue := .quotedString (toString (env.getVersion v)) }
  | .string s =>
      .expression
        { lValue := .markerEnvString s
          operator := .equal
          rValue := .quotedString (env.getString s) }

/-- `Manifest`: the user's direct requirements and editables, as consumed
by `marker_tree`. -/
structure Manifest where
  requirements : List Requirement
  editables : List (LocalEditable × Metadata)

/-- Modelled from the spec: `Manifest::apply` lives in `manifest.rs`, which
is not among the embedded files.  The spec's marker-synthesis walk
traverses every requirement's marker, so the application is the identity
on the requirement list. -/
def Manifest.applyReqs (_m : Manifest) (reqs : List Requirement) : List Requirement := reqs

/-- The `PackageId` of a graph node, as computed at the top of the
`marker_tree` node loop: from name and version for registry pins, from the
raw URL otherwise. -/
def pidOf (d : Dist) : PackageId :=
  match d.versionOrUrl with
  | .version v => .registry d.nameOf v
  | .url u => .url u.target

/-- The requirement loop body of `marker_tree`: fold every requirement's
marker parameters into the seen set. -/
def addReqParams (reqs : List Requirement) (s : List MarkerParam) : List MarkerParam :=
  reqs.foldl
    (fun s' req =>
      match req.marker with
      | none => s'
      | some m => addParamsTree m s')
    s

/-- The node loop of `marker_tree`: metadata lookup (a missing entry
panics) and parameter collection over `requires_dist`. -/
def nodeParamsFold (manifest : Manifest) (index : InMemoryIndex)
    (nodes : List ResolvedNode) (s : List MarkerParam) :
    Except BuildErr (List MarkerParam) :=
  nodes.foldlM
    (fun s' node =>
      match index.distributions (pidOf node.dist) with
      | none => .error (.assertionFailure "every package in resolution graph has metadata")
      | some md => .ok (addReqParams (manifest.applyReqs md.requiresDist) s'))
    s

/-- The direct requirements considered by `marker_tree`: the manifest's
requirements chained with every editable's `requires_dist`. -/
def directReqs (manifest : Manifest) : List Requirement :=
  manifest.requirements ++ manifest.editables.flatMap (fun e => e.2.requiresDist)

/-- `ResolutionGraph::marker_tree`: collect every environment parameter
referenced by any node requirement or direct requirement, then emit the
conjunction of equality conjuncts fixing each to its value in the live
environment. -/
def ResolutionGraph.markerTree (r : ResolutionGraph) (manifest : Manifest)
    (index : InMemoryIndex) (env : MarkerEnvironment) : Except BuildErr MarkerTree := do
  let s1 ← nodeParamsFold manifest index r.petgraph.nodes []
  let s2 := addReqParams (manifest.applyReqs (directReqs manifest)) s1
  .ok (.and (s2.map (mkConj env)))

/-- The markers of the node requirements `marker_tree` walks, in walk
order (failing exactly where the walk's metadata lookup panics). -/
def nodeMarkersFold (manifest : Manifest) (index : InMemoryIndex)
    (nodes : List ResolvedNode) (acc : List MarkerTree) : Except BuildErr (List MarkerTree) :=
  nodes.foldlM
    (fun acc node =>
      match index.distributions (pidOf node.dist) with
      | none => .error (.assertionFailure "every package in resolution graph has metadata")
      | some md => .ok (acc ++ (manifest.applyReqs md.requiresDist).filterMap (fun q => q.marker)))
    acc

/-- The marker trees `marker_tree` walks, in walk order: every node
requirement's marker, then every direct requirement's marker (for stating
soundness). -/
def allSourceMarkers (r : ResolutionGraph) (manifest : Manifest)
    (index : InMemoryIndex) : Except BuildErr (List MarkerTree) := do
  let l ← nodeMarkersFold manifest index r.petgraph.nodes []
  .ok (l ++ (manifest.applyReqs (directReqs manifest)).filterMap (fun q => q.marker))

/-! ## Renderer (`DisplayResolutionGraph`) -/

/-- `AnnotationStyle`. -/
inductive AnnotationStyle
  | line
  | split

/-- The options of `DisplayResolutionGraph::new`. -/
structure DisplayOpts where
  noEmitPackages : List PackageName
  showHashes : Bool
  includeExtras : Bool
  includeAnnots : Bool
  annotStyle : AnnotationStyle

/-- The options picked by `From<&ResolutionGraph>`. -/
def defaultOpts : DisplayOpts :=
  { noEmitPackages := []
    showHashes := false
    includeExtras := false
    includeAnnots := true
    annotStyle := .split }

/-- The renderer's `Node`: an editable node or a distribution node with its
extras and recorded marker. -/
inductive DNode
  | editableN (name : PackageName) (e : LocalEditable)
  | distributionN (name : PackageName) (dist : Dist) (extras : List ExtraName)
      (marker : Option MarkerTree)

/-- `Node::name`. -/
def DNode.nameOf : DNode → PackageName
  | .editableN n _ => n
  | .distributionN n _ _ _ => n

/-- `NodeKey`: editables sort by verbatim representation, distributions by
package name; the tag order puts every editable key before every
distribution key. -/
inductive NodeKeyT
  | editableK (s : String)
  | distributionK (n : PackageName)
deriving DecidableEq

/-- `Node::key`. -/
def DNode.keyOf : DNode → NodeKeyT
  | .editableN _ e => .editableK e.verbatim
  | .distributionN n _ _ _ => .distributionK n

/-- The derived `Ord` on `NodeKey`, as a Boolean order. -/
def keyLeB : NodeKeyT → NodeKeyT → Bool
  | .editableK a, .editableK b => strLe a b
  | .editableK _, .distributionK _ => true
  | .distributionK _, .editableK _ => false
  | .distributionK a, .distributionK b => strLe a b

/-- The sort key of the renderer: `(NodeKey, insertion index)`,
lexicographically. -/
def entryLeB (a b : Nat × DNode) : Bool :=
  if a.2.keyOf = b.2.keyOf then a.1 ≤ b.1 else keyLeB a.2.keyOf b.2.keyOf

/-- `entryLeB` as a relation, for `List.insertionSort`. -/
def EntryLE (a b : Nat × DNode) : Prop := entryLeB a b = true

instance : DecidableRel EntryLE := fun a b => by
  unfold EntryLE; infer_instance

/-- Name order on node payloads (for the annotation requester sort). -/
def NodeNameLE (a b : ResolvedNode) : Prop := strLe a.dist.nameOf b.dist.nameOf = true

instance : DecidableRel NodeNameLE := fun a b => by
  unfold NodeNameLE; infer_instance

/-- Rendering of a marker expression (`pep508_rs` display; modelled from
the spec, only used inside emitted comment text). -/
def MarkerValue.render : MarkerValue → String
  | .markerEnvVersion .implementationVersion => "implementation_version"
  | .markerEnvVersion .pythonFullVersion => "python_full_version"
  | .markerEnvVersion .pythonVersion => "python_version"
  | .markerEnvString .implementationName => "implementation_name"
  | .markerEnvString .osName => "os_name"
  | .markerEnvString .platformMachine => "platform_machine"
  | .markerEnvString .platformPythonImplementation => "platform_python_implementation"
  | .markerEnvString .platformRelease => "platform_release"
  | .markerEnvString .platformSystem => "platform_system"
  | .markerEnvString .platformVersion => "platform_version"
  | .markerEnvString .sysPlatform => "sys_platform"
  | .extra => "extra"
  | .quotedString s => "\"" ++ s ++ "\""

/-- Rendering of a marker operator. -/
def MarkerOperator.render : MarkerOperator → String
  | .equal => "=="
  | .notEqual => "!="
  | .greaterEqual => ">="

mutual

/-- Rendering of a marker tree (modelled from the spec; only used inside
emitted comment text). -/
def MarkerTree.render : MarkerTree → String
  | .expression e => e.lValue.render ++ " " ++ e.operator.render ++ " " ++ e.rValue.render
  | .and l => MarkerTree.renderList " and " l
  | .or l => MarkerTree.renderList " or " l

/-- Rendering of a subtree list with a separator. -/
def MarkerTree.renderList (sep : String) : List MarkerTree → String
  | [] => ""
  | [t] => MarkerTree.render t
  | t :: ts => MarkerTree.render t ++ sep ++ MarkerTree.renderList sep ts

end

/-- `Vec::dedup`: remove consecutive duplicates. -/
def dedupAdj : List ExtraName → List ExtraName
  | [] => []
  | [a] => [a]
  | a :: b :: rest => if a = b then dedupAdj (b :: rest) else a :: dedupAdj (b :: rest)

/-- `itertools::join` with a separator. -/
def joinSep (sep : String) : List String → String
  | [] => ""
  | [a] => a
  | a :: rest => a ++ sep ++ joinSep sep rest

/-- The extras as printed: sorted (`sort_unstable`) then deduplicated
(`dedup`). -/
def sortedExtras (es : List ExtraName) : List ExtraName :=
  dedupAdj (List.insertionSort StrLE es)

/-- `Verbatim` for the renderer's `Node`: editables as `-e <verbatim>`,
distributions as their verbatim form, with the sorted deduplicated extras
in brackets when present and the recorded marker as a trailing comment. -/
def DNode.verbatim : DNode → String
  | .editableN _ e => "-e " ++ e.verbatim
  | .distributionN _ dist [] none => dist.verbatim
  | .distributionN _ dist [] (some m) => dist.verbatim ++ " # " ++ m.render
  | .distributionN _ dist es none =>
      dist.nameOf ++ "[" ++ joinSep ", " (sortedExtras es) ++ "]" ++ dist.versionOrUrl.verbatim
  | .distributionN _ dist es (some m) =>
      dist.nameOf ++ "[" ++ joinSep ", " (sortedExtras es) ++ "]" ++ dist.versionOrUrl.verbatim
        ++ " # " ++ m.render

/-- One iteration of the renderer's collection pass: skip `no_emit`
names, classify editables, and for non-editable nodes extract the version
(the source asserts URL pins are unreachable here and panics on them). -/
def collectNode (r : ResolutionGraph) (o : DisplayOpts) (i : Nat) (node : ResolvedNode) :
    Except BuildErr (Option (Nat × DNode)) :=
  let dist := node.dist
  let name := dist.nameOf
  if name ∈ o.noEmitPackages then .ok none
  else
    match r.editables name with
    | some (e, _) => .ok (some (i, .editableN name e))
    | none =>
      match dist.versionOrUrl with
      | .url _ => .error (.assertionFailure "internal error: entered unreachable code")
      | .version v =>
        let marker := r.markers (name, v)
        if o.includeExtras then
          .ok (some (i, .distributionN name dist ((r.extras name).getD []) marker))
        else
          .ok (some (i, .distributionN name dist [] marker))

/-- The renderer's collection loop (`filter_map` over node indices),
keeping the kept entries in index order. -/
def collectAux (r : ResolutionGraph) (o : DisplayOpts) :
    List (Nat × ResolvedNode) → List (Nat × DNode) → Except BuildErr (List (Nat × DNode))
  | [], acc => .ok acc
  | iv :: rest, acc => do
    match ← collectNode r o iv.1 iv.2 with
    | none => collectAux r o rest acc
    | some x => collectAux r o rest (acc ++ [x])

/-- The renderer's collection pass over all node indices. -/
def collectNodes (r : ResolutionGraph) (o : DisplayOpts) :
    Except BuildErr (List (Nat × DNode)) :=
  collectAux r o r.petgraph.nodes.enum []

/-- The renderer's sort: by `(NodeKey, insertion index)`. -/
def sortNodes (l : List (Nat × DNode)) : List (Nat × DNode) :=
  List.insertionSort EntryLE l

/-- The payloads of the incoming edges of node `i`
(`edges_directed(i, Incoming)`, which petgraph yields newest-first). -/
def incomingSources (r : ResolutionGraph) (i : Nat) : List ResolvedNode :=
  (r.petgraph.edges.filterMap
      (fun e => if e.2.1 = i then r.petgraph.nodes.get? e.1 else none)).reverse

/-- `owo_colors` green. -/
def green (s : String) : String := "\x1b[32m" ++ s ++ "\x1b[39m"

/-- The `{line:24}` padding: pad right with spaces to width 24. -/
def padTo24 (s : String) : String :=
  if s.length < 24 then s ++ String.mk (List.replicate (24 - s.length) ' ') else s

/-- `str::trim_end`. -/
def trimRightStr (s : String) : String :=
  String.mk ((s.data.reverse.dropWhile (fun c => c.isWhitespace)).reverse)

/-- Split into lines at every newline character. -/
def splitLinesAux : List Char → List Char → List String
  | [], acc => [String.mk acc.reverse]
  | c :: cs, acc =>
    if c = '\n' then String.mk acc.reverse :: splitLinesAux cs []
    else splitLinesAux cs (c :: acc)

/-- `str::lines`: split at newlines, without a trailing empty line. -/
def splitLines (s : String) : List String :=
  let l := splitLinesAux s.data []
  if l.getLast? = some "" then l.dropLast else l

/-- `Hashes::to_string` (modelled from the spec: renders the digest when
one is present). -/
def hashString (h : Hash) : Option String := some ("sha256:" ++ toString h)

/-- Render one node of the sorted sequence: the verbatim line, then the
optional `--hash` continuations, then the optional via-annotation, with
padding and per-line trailing-whitespace trimming. -/
def renderNode (r : ResolutionGraph) (o : DisplayOpts) (entry : Nat × DNode) : String :=
  let node := entry.2
  let hstrs : List String :=
    if o.showHashes then
      match r.hashes node.nameOf with
      | some hs => if hs.isEmpty then [] else hs.filterMap hashString
      | none => []
    else []
  let hasHashes := !hstrs.isEmpty
  let line := node.verbatim ++ String.join (hstrs.map (fun h => " \\\n    --hash=" ++ h))
  let annot : Option (String × String) :=
    if o.includeAnnots then
      let edges := List.insertionSort NodeNameLE (incomingSources r entry.1)
      match o.annotStyle with
      | .line =>
        if edges.isEmpty then none
        else
          some
            (if hasHashes then "\n    " else "  ",
             green ("# via " ++ joinSep ", " (edges.map (fun d => d.dist.nameOf))))
      | .split =>
        match edges with
        | [] => none
        | [e] => some ("\n", green ("    # via " ++ e.dist.nameOf))
        | es =>
          some
            ("\n",
             green ("    # via\n" ++ joinSep "\n" (es.map (fun d => "    #   " ++ d.dist.nameOf))))
    else none
  match annot with
  | some (sep, comment) =>
      String.join ((splitLines (padTo24 line ++ sep ++ comment)).map
        (fun l => trimRightStr l ++ "\n"))
  | none => line ++ "\n"

/-- `Display for DisplayResolutionGraph`: collect, sort, render each node
in order.  Collection can hit the source's `unreachable!`, which is the
error channel here. -/
def displayFmt (r : ResolutionGraph) (o : DisplayOpts) : Except BuildErr String := do
  let collected ← collectNodes r o
  .ok (String.join ((sortNodes collected).map (renderNode r o)))

/-! ## Pure description of one builder step

To reason about pass A, each `(package, version)` pair of the solver
output is classified by a pure, state-independent success predicate
`entryOk` and a pure transition `specStep` that agrees with
`processEntry` on successful entries.  Both read off the same source
arms. -/

/-- The flattened iteration order of pass A: all `(identity, version)`
pairs in input order. -/
def entriesOf (packages : List (PubGrubPackage × List (Version × Option MarkerTree))) :
    List (PubGrubPackage × Version) :=
  packages.flatMap (fun e => e.2.map (fun v => (e.1, v.1)))

/-- The `PackageId` under which an extra's base metadata is looked up. -/
def pidFor (n : PackageName) (v : Version) (u : Option VerbatimUrl) : PackageId :=
  match u with
  | none => .registry n v
  | some url => .url url.target

/-- The metadata governing an extra validation: the editable's metadata if
the name is editable, the index entry otherwise. -/
def metadataFor (index : InMemoryIndex) (editables : Editables)
    (n : PackageName) (v : Version) (u : Option VerbatimUrl) : Option Metadata :=
  match editables n with
  | some (_, md) => some md
  | none => index.distributions (pidFor n v u)

/-- Whether the base distribution provides the extra. -/
def extraProvided (index : InMemoryIndex) (editables : Editables)
    (n : PackageName) (v : Version) (u : Option VerbatimUrl) (x : ExtraName) : Bool :=
  match metadataFor index editables n v u with
  | some md => x ∈ md.providesExtras
  | none => false

/-- The distribution a concrete-real entry pins (the `.ok` value of the
materialization in `from_state`). -/
def specDist (index : InMemoryIndex) (editables : Editables)
    (pins : PackageName → Version → Option Dist)
    (n : PackageName) (v : Version) (u : Option VerbatimUrl) : Dist :=
  match editables n with
  | some (e, _) => .editable n e
  | none =>
    match u with
    | none => (pins n v).getD (.registry n v)
    | some url => .url n (redirected index url)

/-- The `MissingExtra` diagnostic an extra entry emits, if any. -/
def diagFor (index : InMemoryIndex) (editables : Editables)
    (pins : PackageName → Version → Option Dist) :
    PubGrubPackage × Version → Option Diagnostic
  | (.package n (some x) none u, v) =>
    if extraProvided index editables n v u x then none
    else
      match editables n with
      | some (e, _) => some (.missingExtra (.editable n e) x)
      | none =>
        match index.distributions (pidFor n v u) with
        | none => none
        | some _ =>
          match u with
          | none => (pins n v).map (fun d => .missingExtra d x)
          | some url => some (.missingExtra (.url n (redirected index url)) x)
  | _ => none

/-- Whether one pass-A iteration succeeds (no `ResolveError`, no panic);
this depends only on the entry and the read-only collaborators, never on
the builder state. -/
def entryOk (index : InMemoryIndex) (editables : Editables)
    (pins : PackageName → Version → Option Dist) :
    PubGrubPackage × Version → Bool
  | (.package n none none none, v) =>
    (match editables n with
     | some (e, _) => e.valid
     | none => (pins n v).isSome)
  | (.package n none none (some url), _) =>
    (match editables n with
     | some (e, _) => e.valid
     | none => (redirected index url).valid)
  | (.package n (some x) none u, v) =>
    (match editables n with
     | some (e, md) => decide (x ∈ md.providesExtras) || e.valid
     | none =>
       match index.distributions (pidFor n v u) with
       | none => false
       | some md =>
         if x ∈ md.providesExtras then true
         else
           match u with
           | none => (pins n v).isSome
           | some url => (redirected index url).valid)
  | _ => true

/-- The pure transition of one successful pass-A iteration.  Agrees with
`processEntry` whenever `entryOk` holds. -/
def specStep (index : InMemoryIndex) (preferences : Preferences)
    (editables : Editables) (pins : PackageName → Version → Option Dist)
    (st : BuildState) : PubGrubPackage × Version → BuildState
  | (.package n none (some m) none, v) =>
      { st with
          markers := mapInsert st.markers (n, v) (((st.markers (n, v)).getD (.or [])).orInto m) }
  | (.package n none none u, v) =>
      { st with
          g := (st.g.addNode { dist := specDist index editables pins n v u, markers := none }).1
          hashes := hashUpdate index preferences n v st.hashes
          inverse := mapInsert st.inverse n st.g.nodes.length }
  | (.package n (some x) none u, v) =>
      if extraProvided index editables n v u x then
        { st with extras := mapInsert st.extras n (((st.extras n).getD []) ++ [x]) }
      else
        { st with
            diagnostics :=
              st.diagnostics ++ (diagFor index editables pins (.package n (some x) none u, v)).toList }
  | _ => st

/-- The names of the concrete-real entries (those that materialize a
node), in iteration order. -/
def crNames (l : List (PubGrubPackage × Version)) : List PackageName :=
  l.filterMap
    (fun e =>
      match e with
      | (.package n none none _, _) => some n
      | _ => none)

/-- The versions of the concrete-real entries bearing name `k`, in
iteration order. -/
def crVersionsOf (l : List (PubGrubPackage × Version)) (k : PackageName) : List Version :=
  l.filterMap
    (fun e =>
      match e with
      | (.package n none none _, v) => if n = k then some v else none
      | _ => none)

/-- The fork markers accumulated at one `(name, version)` key, in
iteration order. -/
def forkFor (l : List (PubGrubPackage × Version)) (key : PackageName × Version) :
    List MarkerTree :=
  l.filterMap
    (fun e =>
      match e with
      | (.package n none (some m) none, v) => if (n, v) = key then some m else none
      | _ => none)

/-- The extras recorded for name `k` (those whose base provides them), in
iteration order. -/
def providedFor (index : InMemoryIndex) (editables : Editables)
    (l : List (PubGrubPackage × Version)) (k : PackageName) : List ExtraName :=
  l.filterMap
    (fun e =>
      match e with
      | (.package n (some x) none u, v) =>
        if n = k ∧ extraProvided index editables n v u x then some x else none
      | _ => none)

/-- All `MissingExtra` diagnostics of the input, in iteration order. -/
def missedFor (index : InMemoryIndex) (editables : Editables)
    (pins : PackageName → Version → Option Dist)
    (l : List (PubGrubPackage × Version)) : List Diagnostic :=
  l.filterMap (diagFor index editables pins)

/-- Every pin carries the name it is stored under (the Pin Table
well-formedness of the spec). -/
def pinCoherent (pins : PackageName → Version → Option Dist) : Prop :=
  ∀ n v d, pins n v = some d → d.nameOf = n

/-- The virtual-extra entries of the input for one `(name, extra)` pair,
as their `(version, url)` data, in iteration order. -/
def extraEntriesFor (l : List (PubGrubPackage × Version)) (k : PackageName) (x : ExtraName) :
    List (Version × Option VerbatimUrl) :=
  l.filterMap
    (fun e =>
      match e with
      | (.package n (some y) none u, v) => if n = k ∧ y = x then some (v, u) else none
      | _ => none)

/-- All requested ranges recorded for an ordered name pair across the
whole dependency list. -/
def allRangesFor (deps : List (DepNames × List RangeV)) (names : DepNames) : List RangeV :=
  (deps.filter (fun d => decide (d.1 = names))).flatMap (fun d => d.2)

/-- Fold `orInto` over a list of markers (what repeated accumulation at
one key produces). -/
def extendOr (t : MarkerTree) (ms : List MarkerTree) : MarkerTree :=
  ms.foldl MarkerTree.orInto t

/-- The build state after a successful pass A, described purely. -/
def specFinal (index : InMemoryIndex) (preferences : Preferences)
    (editables : Editables) (pins : PackageName → Version → Option Dist)
    (packages : List (PubGrubPackage × List (Version × Option MarkerTree))) : BuildState :=
  (entriesOf packages).foldl (specStep index preferences editables pins) initState

/-- Union of a list of ranges starting from the empty range (what pass B
folds into one edge). -/
def unionRs (rs : List RangeV) : RangeV :=
  rs.foldl RangeV.unionR RangeV.emptyR

/-- The edge pass B produces for one dependency entry, given the
`name → NodeIndex` map (indices read through `getD`, which coincides with
the real lookups whenever both endpoints resolve). -/
def edgeFor (inv : PackageName → Option Nat) (d : DepNames × List RangeV) : GEdge :=
  ((inv d.1.fromName).getD 0, (inv d.1.toName).getD 0, unionRs d.2)

/-- The endpoint index pair of `edgeFor`. -/
def pairFor (inv : PackageName → Option Nat) (d : DepNames × List RangeV) : Nat × Nat :=
  ((inv d.1.fromName).getD 0, (inv d.1.toName).getD 0)

/-- Well-formedness of the `name → NodeIndex` map relative to the graph:
every stored index is in range and points at a node carrying that name. -/
def invWf (st : BuildState) : Prop :=
  ∀ n i, st.inverse n = some i →
    i < st.g.nodes.length ∧ (st.g.nodes.get? i).map (fun nd => nd.dist.nameOf) = some n

/-- In-range and injective `name → NodeIndex` map (holds without any pin
coherence assumption). -/
def invInj (st : BuildState) : Prop :=
  (∀ n i, st.inverse n = some i → i < st.g.nodes.length)
    ∧ (∀ n m i, st.inverse n = some i → st.inverse m = some i → n = m)

/-- The names of the graph's nodes, in node-index order. -/
def nodeNames (g : Graph) : List PackageName :=
  g.nodes.map (fun nd => nd.dist.nameOf)

/-- Whether a renderer sort key is an editable key. -/
def NodeKeyT.isEd : NodeKeyT → Bool
  | .editableK _ => true
  | .distributionK _ => false

/-- The string component of a renderer sort key (verbatim text for
editables, package name for distributions). -/
def NodeKeyT.keyStr : NodeKeyT → String
  | .editableK s => s
  | .distributionK n => n

/-! ## Concrete instances (used by witnesses and counterexamples) -/

/-- An index with no entries. -/
def emptyIndex : InMemoryIndex :=
  { packages := fun _ => none, distributions := fun _ => none, redirects := fun _ => none }

/-- Preferences with no prior lockfile hashes. -/
def emptyPrefs : Preferences := { matchHashes := fun _ _ => none }

/-- No editable packages. -/
def noEditables : Editables := fun _ => none

/-- An empty resolution graph, used as the `getD` default when reading an
`Except` value at a concrete input. -/
def emptyRG : ResolutionGraph :=
  { petgraph := { nodes := [], edges := [] }
    hashes := fun _ => none
    extras := fun _ => none
    markers := fun _ => none
    editables := noEditables
    diagnostics := [] }

/-- Pins for two registry packages `a==1` and `b==2`. -/
def pinsAB : PackageName → Version → Option Dist := fun n v =>
  if n = "a" ∧ v = 1 then some (.registry "a" 1)
  else if n = "b" ∧ v = 2 then some (.registry "b" 2)
  else none

/-- The range of all versions at least `k`. -/
def rangeGe (k : Nat) : RangeV := fun v => decide (k ≤ v)

/-- Concrete input: two pinned packages with one dependency entry carrying
two requested ranges. -/
def resC1 : Resolution :=
  { packages := [(.package "a" none none none, [(1, none)]),
                 (.package "b" none none none, [(2, none)])]
    pins := pinsAB
    dependencies := [(DepNames.mk "a" "b", [rangeGe 1, rangeGe 3])] }

/-- Concrete input: one selected concrete-real package with an empty pin
table. -/
def resC2 : Resolution :=
  { packages := [(.package "a" none none none, [(1, none)])]
    pins := fun _ _ => none
    dependencies := [] }

/-- Concrete input: one selected virtual-extra package with an empty
metadata index. -/
def resC2x : Resolution :=
  { packages := [(.package "a" (some "x") none none, [(1, none)])]
    pins := fun _ _ => none
    dependencies := [] }

/-- A URL that parses fine. -/
def urlA : VerbatimUrl := { given := "https://u/a.tgz", target := "https://u/a.tgz", valid := true }

/-- An editable whose build fails. -/
def badEditable : LocalEditable :=
  { url := { given := "./pkg", target := "file://pkg", valid := true }, valid := false }

/-- Metadata with no extras and no requirements. -/
def mdEmpty : Metadata := { providesExtras := [], requiresDist := [] }

/-- Editables table mapping `a` to the failing editable. -/
def edsBad : Editables := fun n => if n = "a" then some (badEditable, mdEmpty) else none

/-- Concrete input: one selected non-editable URL-pinned package. -/
def resC3 : Resolution :=
  { packages := [(.package "a" none none (some urlA), [(1, none)])]
    pins := fun _ _ => none
    dependencies := [] }

/-- The marker `sys_platform == "linux"`. -/
def markerLinux : MarkerTree :=
  .expression
    { lValue := .markerEnvString .sysPlatform
      operator := .equal
      rValue := .quotedString "linux" }

/-- The marker `sys_platform == "darwin"`. -/
def markerDarwin : MarkerTree :=
  .expression
    { lValue := .markerEnvString .sysPlatform
      operator := .equal
      rValue := .quotedString "darwin" }

/-- Concrete input: the same pin selected under two fork markers. -/
def resC7 : Resolution :=
  { packages := [(.package "a" none (some markerLinux) none, [(1, none)]),
                 (.package "a" none (some markerDarwin) none, [(1, none)])]
    pins := fun _ _ => none
    dependencies := [] }

/-- A version map giving unsorted hashes to version 1. -/
def vmapC6 : Version → List Hash := fun v => if v = 1 then [5, 3, 4] else []

/-- An index whose version listing for `a` is `Found` with `vmapC6`. -/
def idxC6 : InMemoryIndex :=
  { packages := fun n => if n = "a" then some (.found vmapC6) else none
    distributions := fun _ => none
    redirects := fun _ => none }

/-- Concrete input: one pinned package `a==1`. -/
def resC6 : Resolution :=
  { packages := [(.package "a" none none none, [(1, none)])]
    pins := pinsAB
    dependencies := [] }

/-- An index whose metadata for `a==1` provides no extras. -/
def idxC4 : InMemoryIndex :=
  { packages := fun _ => none
    distributions := fun pid => if pid = .registry "a" 1 then some mdEmpty else none
    redirects := fun _ => none }

/-- Concrete input: `a==1` plus the virtual extra `a[x]`. -/
def resC4 : Resolution :=
  { packages := [(.package "a" none none none, [(1, none)]),
                 (.package "a" (some "x") none none, [(1, none)])]
    pins := pinsAB
    dependencies := [] }

/-- A requirement on `b` guarded by `sys_platform == "linux"`. -/
def reqLinux : Requirement := { name := "b", marker := some markerLinux }

/-- An index whose metadata for `a==1` carries the guarded requirement. -/
def idxC5 : InMemoryIndex :=
  { packages := fun _ => none
    distributions := fun pid =>
      if pid = .registry "a" 1 then some { providesExtras := [], requiresDist := [reqLinux] }
      else none
    redirects := fun _ => none }

/-- An empty manifest. -/
def manifest0 : Manifest := { requirements := [], editables := [] }

/-- A concrete marker environment. -/
def env0 : MarkerEnvironment :=
  { getVersion := fun _ => 311, getString := fun _ => "linux" }

/-- An editable that builds fine. -/
def goodEditable : LocalEditable :=
  { url := { given := "./w", target := "file://w", valid := true }, valid := true }

/-- Editables table mapping `w` to the good editable. -/
def edsC9 : Editables := fun n => if n = "w" then some (goodEditable, mdEmpty) else none

/-- Pins for `a==1`, `b==2` and `w==3`. -/
def pinsC9 : PackageName → Version → Option Dist := fun n v =>
  if n = "a" ∧ v = 1 then some (.registry "a" 1)
  else if n = "b" ∧ v = 2 then some (.registry "b" 2)
  else if n = "w" ∧ v = 3 then some (.registry "w" 3)
  else none

/-- Concrete input: two registry packages and one editable package. -/
def resC9 : Resolution :=
  { packages := [(.package "b" none none none, [(2, none)]),
                 (.package "w" none none none, [(3, none)]),
                 (.package "a" none none none, [(1, none)])]
    pins := pinsC9
    dependencies := [] }

end UvRes

namespace UvRes

theorem exc_bind_ok {α β : Type} (x : α) (f : α → Except BuildErr β) :
    (Except.ok x >>= f) = f x := rfl

theorem processEntry_eq_specStep (index : InMemoryIndex) (preferences : Preferences)
    (editables : Editables) (pins : PackageName → Version → Option Dist)
    (st : BuildState) (e : PubGrubPackage × Version)
    (h : entryOk index editables pins e = true) :
    processEntry index preferences editables pins st e.1 e.2 =
      .ok (specStep index preferences editables pins st e) := by
  obtain ⟨p, v⟩ := e
  cases p with
  | root n => rfl
  | python k => rfl
  | package n extra marker url =>
    cases extra with
    | none =>
      cases marker with
      | some m =>
        cases url with
        | none => rfl
        | some u => rfl
      | none =>
        cases url with
        | none =>
          simp only [entryOk] at h
          simp only [processEntry, specStep, specDist]
          cases hed : editables n with
          | some pr =>
            obtain ⟨ed, md⟩ := pr
            rw [hed] at h; simp only [] at h
            simp [hed, distFromEditable, h, exc_bind_ok]
          | none =>
            rw [hed] at h; simp only [] at h
            cases hp : pins n v with
            | some d => simp [hed, hp, exc_bind_ok]
            | none => rw [hp] at h; simp at h
        | some u =>
          simp only [entryOk] at h
          simp only [processEntry, specStep, specDist]
          cases hed : editables n with
          | some pr =>
            obtain ⟨ed, md⟩ := pr
            rw [hed] at h; simp only [] at h
            simp [hed, distFromEditable, h, exc_bind_ok]
          | none =>
            rw [hed] at h; simp only [] at h
            simp [hed, distFromUrl, h, exc_bind_ok]
    | some x =>
      cases marker with
      | some m =>
        cases url with
        | none => rfl
        | some u => rfl
      | none =>
        cases url with
        | none =>
          simp only [entryOk, pidFor] at h
          simp only [processEntry, specStep, diagFor, extraProvided, metadataFor, pidFor]
          cases hed : editables n with
          | some pr =>
            obtain ⟨ed, md⟩ := pr
            rw [hed] at h; simp only [] at h
            by_cases hx : x ∈ md.providesExtras
            · simp [hed, hx]
            · simp [hx] at h
              simp [hed, hx, distFromEditable, h, exc_bind_ok]
          | none =>
            rw [hed] at h; simp only [] at h
            cases hmd : index.distributions (PackageId.registry n v) with
            | none => rw [hmd] at h; simp at h
            | some md =>
              rw [hmd] at h
              by_cases hx : x ∈ md.providesExtras
              · simp [hed, hmd, hx]
              · simp [hx] at h
                cases hp : pins n v with
                | none => rw [hp] at h; simp at h
                | some d => simp [hed, hmd, hx, hp, exc_bind_ok]
        | some u =>
          simp only [entryOk, pidFor] at h
          simp only [processEntry, specStep, diagFor, extraProvided, metadataFor, pidFor]
          cases hed : editables n with
          | some pr =>
            obtain ⟨ed, md⟩ := pr
            rw [hed] at h; simp only [] at h
            by_cases hx : x ∈ md.providesExtras
            · simp [hed, hx]
            · simp [hx] at h
              simp [hed, hx, distFromEditable, h, exc_bind_ok]
          | none =>
            rw [hed] at h; simp only [] at h
            cases hmd : index.distributions (PackageId.url u.target) with
            | none => rw [hmd] at h; simp at h
            | some md =>
              rw [hmd] at h
              by_cases hx : x ∈ md.providesExtras
              · simp [hed, hmd, hx]
              · simp [hx] at h
                simp [hed, hmd, hx, distFromUrl, h, exc_bind_ok]

end UvRes

namespace UvRes

theorem exc_bind_err {α β : Type} (msg : BuildErr) (f : α → Except BuildErr β) :
    ((Except.error msg : Except BuildErr α) >>= f) = .error msg := rfl

theorem processEntry_err (index : InMemoryIndex) (preferences : Preferences)
    (editables : Editables) (pins : PackageName → Version → Option Dist)
    (st : BuildState) (e : PubGrubPackage × Version)
    (h : entryOk index editables pins e = false) :
    ∃ msg, processEntry index preferences editables pins st e.1 e.2 = .error msg := by
  obtain ⟨p, v⟩ := e
  cases p with
  | root n => simp [entryOk] at h
  | python k => simp [entryOk] at h
  | package n extra marker url =>
    cases extra with
    | none =>
      cases marker with
      | some m =>
        cases url with
        | none => simp [entryOk] at h
        | some u => simp [entryOk] at h
      | none =>
        cases url with
        | none =>
          simp only [entryOk] at h
          simp only [processEntry]
          cases hed : editables n with
          | some pr =>
            obtain ⟨ed, md⟩ := pr
            rw [hed] at h; simp only [] at h
            simp only [hed, distFromEditable, h, if_false, Bool.false_eq_true]
            exact ⟨_, rfl⟩
          | none =>
            rw [hed] at h; simp only [] at h
            cases hp : pins n v with
            | some d => rw [hp] at h; simp at h
            | none =>
              simp only [hed, hp]
              exact ⟨_, rfl⟩
        | some u =>
          simp only [entryOk] at h
          simp only [processEntry]
          cases hed : editables n with
          | some pr =>
            obtain ⟨ed, md⟩ := pr
            rw [hed] at h; simp only [] at h
            simp only [hed, distFromEditable, h, if_false, Bool.false_eq_true]
            exact ⟨_, rfl⟩
          | none =>
            rw [hed] at h; simp only [] at h
            simp only [hed, distFromUrl, h, if_false, Bool.false_eq_true]
            exact ⟨_, rfl⟩
    | some x =>
      cases marker with
      | some m =>
        cases url with
        | none => simp [entryOk] at h
        | some u => simp [entryOk] at h
      | none =>
        cases url with
        | none =>
          simp only [entryOk, pidFor] at h
          simp only [processEntry]
          cases hed : editables n with
          | some pr =>
            obtain ⟨ed, md⟩ := pr
            rw [hed] at h; simp only [] at h
            obtain ⟨hx, hv⟩ := by simpa using h
            simp only [hed, hx, distFromEditable, hv, if_false, Bool.false_eq_true]
            exact ⟨_, rfl⟩
          | none =>
            rw [hed] at h; simp only [] at h
            cases hmd : index.distributions (PackageId.registry n v) with
            | none =>
              simp only [hed, hmd]
              exact ⟨_, rfl⟩
            | some md =>
              rw [hmd] at h
              by_cases hx : x ∈ md.providesExtras
              · simp [hx] at h
              · simp [hx] at h
                simp only [hed, hmd, hx, h, if_false, Bool.false_eq_true]
                exact ⟨_, rfl⟩
        | some u =>
          simp only [entryOk, pidFor] at h
          simp only [processEntry]
          cases hed : editables n with
          | some pr =>
            obtain ⟨ed, md⟩ := pr
            rw [hed] at h; simp only [] at h
            obtain ⟨hx, hv⟩ := by simpa using h
            simp only [hed, hx, distFromEditable, hv, if_false, Bool.false_eq_true]
            exact ⟨_, rfl⟩
          | none =>
            rw [hed] at h; simp only [] at h
            cases hmd : index.distributions (PackageId.url u.target) with
            | none =>
              simp only [hed, hmd]
              exact ⟨_, rfl⟩
            | some md =>
              rw [hmd] at h
              by_cases hx : x ∈ md.providesExtras
              · simp [hx] at h
              · simp [hx] at h
                simp only [hed, hmd, hx, distFromUrl, h, if_false, Bool.false_eq_true]
                exact ⟨_, rfl⟩

theorem foldl_entries_ok (index : InMemoryIndex) (preferences : Preferences)
    (editables : Editables) (pins : PackageName → Version → Option Dist) :
    ∀ (l : List (PubGrubPackage × Version)) (st st' : BuildState),
    (l.foldlM (fun s e => processEntry index preferences editables pins s e.1 e.2) st = .ok st')
      ↔ ((∀ e ∈ l, entryOk index editables pins e = true)
          ∧ st' = l.foldl (specStep index preferences editables pins) st) := by
  intro l
  induction l with
  | nil =>
    intro st st'
    simp only [List.foldlM_nil, List.foldl_nil, List.not_mem_nil, false_implies, implies_true,
      true_and]
    constructor
    · intro hh; injection hh with hh; exact hh.symm
    · intro hh; rw [hh]; rfl
  | cons e rest ih =>
    intro st st'
    rw [List.foldlM_cons]
    cases hok : entryOk index editables pins e with
    | true =>
      rw [processEntry_eq_specStep index preferences editables pins st e hok, exc_bind_ok]
      rw [ih]
      simp [hok]
    | false =>
      obtain ⟨msg, hmsg⟩ := processEntry_err index preferences editables pins st e hok
      rw [hmsg, exc_bind_err]
      constructor
      · intro hcontra; exact Except.noConfusion hcontra
      · rintro ⟨hall, -⟩
        rw [hall e (by simp)] at hok; cases hok

end UvRes

namespace UvRes

theorem buildNodes_eq_entries (index : InMemoryIndex) (preferences : Preferences)
    (editables : Editables) (pins : PackageName → Version → Option Dist)
    (packages : List (PubGrubPackage × List (Version × Option MarkerTree))) :
    buildNodes index preferences editables pins packages =
      (entriesOf packages).foldlM
        (fun s en => processEntry index preferences editables pins s en.1 en.2) initState := by
  suffices h : ∀ (pkgs : List (PubGrubPackage × List (Version × Option MarkerTree)))
      (st : BuildState),
      pkgs.foldlM (processPackage index preferences editables pins) st =
        (entriesOf pkgs).foldlM
          (fun s en => processEntry index preferences editables pins s en.1 en.2) st by
    exact h packages initState
  intro pkgs
  induction pkgs with
  | nil => intro st; rfl
  | cons hd rest ih =>
    intro st
    rw [List.foldlM_cons]
    rw [show entriesOf (hd :: rest) = hd.2.map (fun v => (hd.1, v.1)) ++ entriesOf rest from by
      simp [entriesOf]]
    rw [List.foldlM_append]
    have inner : ∀ st0 : BuildState,
        processPackage index preferences editables pins st0 hd =
          (hd.2.map (fun v => (hd.1, v.1))).foldlM
            (fun s en => processEntry index preferences editables pins s en.1 en.2) st0 := by
      intro st0
      unfold processPackage
      induction hd.2 generalizing st0 with
      | nil => rfl
      | cons v vs ihv =>
        rw [List.map_cons, List.foldlM_cons, List.foldlM_cons]
        cases hpe : processEntry index preferences editables pins st0 hd.1 v.1 with
        | error msg => rfl
        | ok s1 => simp only [exc_bind_ok]; exact ihv s1
    rw [inner]
    cases hfold : (hd.2.map (fun v => (hd.1, v.1))).foldlM
        (fun s en => processEntry index preferences editables pins s en.1 en.2) st with
    | error msg => rfl
    | ok s1 => simp only [exc_bind_ok]; exact ih s1

theorem buildNodes_ok_iff (index : InMemoryIndex) (preferences : Preferences)
    (editables : Editables) (pins : PackageName → Version → Option Dist)
    (packages : List (PubGrubPackage × List (Version × Option MarkerTree)))
    (st : BuildState) :
    buildNodes index preferences editables pins packages = .ok st ↔
      ((∀ e ∈ entriesOf packages, entryOk index editables pins e = true)
        ∧ st = specFinal index preferences editables pins packages) := by
  rw [buildNodes_eq_entries, foldl_entries_ok]
  rfl

theorem fromState_ok_elim (index : InMemoryIndex) (preferences : Preferences)
    (editables : Editables) (resolution : Resolution) (g : ResolutionGraph)
    (h : fromState index preferences editables resolution = .ok g) :
    ∃ st gr, buildNodes index preferences editables resolution.pins resolution.packages = .ok st
      ∧ addEdges st.inverse st.g resolution.dependencies = .ok gr
      ∧ g = { petgraph := gr
              hashes := st.hashes
              extras := st.extras
              markers := st.markers
              editables := editables
              diagnostics := st.diagnostics } := by
  unfold fromState at h
  cases hb : buildNodes index preferences editables resolution.pins resolution.packages with
  | error msg => rw [hb, exc_bind_err] at h; exact Except.noConfusion h
  | ok st =>
    rw [hb, exc_bind_ok] at h
    cases ha : addEdges st.inverse st.g resolution.dependencies with
    | error msg => rw [ha, exc_bind_err] at h; exact Except.noConfusion h
    | ok gr =>
      rw [ha, exc_bind_ok] at h
      exact ⟨st, gr, rfl, ha, (Except.ok.inj h).symm⟩

end UvRes

namespace UvRes

theorem specDist_name (index : InMemoryIndex) (editables : Editables)
    (pins : PackageName → Version → Option Dist) (hpc : pinCoherent pins)
    (n : PackageName) (v : Version) (u : Option VerbatimUrl) :
    (specDist index editables pins n v u).nameOf = n := by
  unfold specDist
  cases hed : editables n with
  | some pr => obtain ⟨e, md⟩ := pr; rfl
  | none =>
    cases u with
    | none =>
      cases hp : pins n v with
      | some d => simpa using hpc n v d hp
      | none => rfl
    | some url => rfl

theorem specStep_edges (index : InMemoryIndex) (preferences : Preferences)
    (editables : Editables) (pins : PackageName → Version → Option Dist)
    (st : BuildState) (e : PubGrubPackage × Version) :
    (specStep index preferences editables pins st e).g.edges = st.g.edges := by
  obtain ⟨p, v⟩ := e
  cases p with
  | root n => rfl
  | python k => rfl
  | package n extra marker url =>
    cases extra with
    | none =>
      cases marker with
      | some m => cases url with | none => rfl | some u => rfl
      | none => cases url with | none => rfl | some u => rfl
    | some x =>
      cases marker with
      | some m => cases url with | none => rfl | some u => rfl
      | none =>
        cases url with
        | none => simp only [specStep]; split <;> rfl
        | some u => simp only [specStep]; split <;> rfl

theorem specFold_edges (index : InMemoryIndex) (preferences : Preferences)
    (editables : Editables) (pins : PackageName → Version → Option Dist) :
    ∀ (l : List (PubGrubPackage × Version)) (st : BuildState),
    ((l.foldl (specStep index preferences editables pins) st).g.edges) = st.g.edges := by
  intro l
  induction l with
  | nil => intro st; rfl
  | cons e rest ih =>
    intro st
    rw [List.foldl_cons, ih, specStep_edges]

theorem specStep_nodeNames (index : InMemoryIndex) (preferences : Preferences)
    (editables : Editables) (pins : PackageName → Version → Option Dist)
    (hpc : pinCoherent pins) (st : BuildState) (e : PubGrubPackage × Version) :
    nodeNames (specStep index preferences editables pins st e).g =
      nodeNames st.g ++ crNames [e] := by
  obtain ⟨p, v⟩ := e
  cases p with
  | root n => simp [specStep, crNames]
  | python k => simp [specStep, crNames]
  | package n extra marker url =>
    cases extra with
    | none =>
      cases marker with
      | some m => cases url with
        | none => simp [specStep, crNames]
        | some u => simp [specStep, crNames]
      | none =>
        cases url with
        | none =>
          simp [specStep, crNames, nodeNames, Graph.addNode,
            specDist_name index editables pins hpc]
        | some u =>
          simp [specStep, crNames, nodeNames, Graph.addNode,
            specDist_name index editables pins hpc]
    | some x =>
      cases marker with
      | some m => cases url with
        | none => simp [specStep, crNames]
        | some u => simp [specStep, crNames]
      | none =>
        cases url with
        | none => simp only [specStep, crNames]; split <;> simp [nodeNames]
        | some u => simp only [specStep, crNames]; split <;> simp [nodeNames]

theorem crNames_append (l l' : List (PubGrubPackage × Version)) :
    crNames (l ++ l') = crNames l ++ crNames l' := by
  simp [crNames, List.filterMap_append]

theorem specFold_nodeNames (index : InMemoryIndex) (preferences : Preferences)
    (editables : Editables) (pins : PackageName → Version → Option Dist)
    (hpc : pinCoherent pins) :
    ∀ (l : List (PubGrubPackage × Version)) (st : BuildState),
    nodeNames ((l.foldl (specStep index preferences editables pins) st).g) =
      nodeNames st.g ++ crNames l := by
  intro l
  induction l with
  | nil => intro st; simp [crNames]
  | cons e rest ih =>
    intro st
    rw [List.foldl_cons, ih, specStep_nodeNames index preferences editables pins hpc,
      List.append_assoc, ← crNames_append]
    rfl

end UvRes

namespace UvRes

theorem specStep_hashes (index : InMemoryIndex) (preferences : Preferences)
    (editables : Editables) (pins : PackageName → Version → Option Dist)
    (st : BuildState) (e : PubGrubPackage × Version) (k : PackageName) :
    (specStep index preferences editables pins st e).hashes k =
      (crVersionsOf [e] k).foldl (fun a v => hashStep index preferences k v a) (st.hashes k) := by
  obtain ⟨p, v⟩ := e
  cases p with
  | root n => simp [specStep, crVersionsOf]
  | python kk => simp [specStep, crVersionsOf]
  | package n extra marker url =>
    cases extra with
    | none =>
      cases marker with
      | some m => cases url with
        | none => simp [specStep, crVersionsOf]
        | some u => simp [specStep, crVersionsOf]
      | none =>
        cases url with
        | none =>
          by_cases hk : k = n
          · subst hk; simp [specStep, crVersionsOf, hashUpdate]
          · simp [specStep, crVersionsOf, hashUpdate, hk, Ne.symm hk]
        | some u =>
          by_cases hk : k = n
          · subst hk; simp [specStep, crVersionsOf, hashUpdate]
          · simp [specStep, crVersionsOf, hashUpdate, hk, Ne.symm hk]
    | some x =>
      cases marker with
      | some m => cases url with
        | none => simp [specStep, crVersionsOf]
        | some u => simp [specStep, crVersionsOf]
      | none =>
        cases url with
        | none => simp only [specStep, crVersionsOf]; split <;> simp
        | some u => simp only [specStep, crVersionsOf]; split <;> simp

theorem crVersionsOf_append (l l' : List (PubGrubPackage × Version)) (k : PackageName) :
    crVersionsOf (l ++ l') k = crVersionsOf l k ++ crVersionsOf l' k := by
  simp [crVersionsOf, List.filterMap_append]

theorem specFold_hashes (index : InMemoryIndex) (preferences : Preferences)
    (editables : Editables) (pins : PackageName → Version → Option Dist) :
    ∀ (l : List (PubGrubPackage × Version)) (st : BuildState) (k : PackageName),
    ((l.foldl (specStep index preferences editables pins) st).hashes k) =
      (crVersionsOf l k).foldl (fun a v => hashStep index preferences k v a) (st.hashes k) := by
  intro l
  induction l with
  | nil => intro st k; simp [crVersionsOf]
  | cons e rest ih =>
    intro st k
    rw [List.foldl_cons, ih, specStep_hashes,
      show e :: rest = [e] ++ rest from rfl, crVersionsOf_append, List.foldl_append]

theorem providedFor_append (index : InMemoryIndex) (editables : Editables)
    (l l' : List (PubGrubPackage × Version)) (k : PackageName) :
    providedFor index editables (l ++ l') k =
      providedFor index editables l k ++ providedFor index editables l' k := by
  simp [providedFor, List.filterMap_append]

theorem specStep_extras (index : InMemoryIndex) (preferences : Preferences)
    (editables : Editables) (pins : PackageName → Version → Option Dist)
    (st : BuildState) (e : PubGrubPackage × Version) (k : PackageName) :
    (specStep index preferences editables pins st e).extras k =
      (if providedFor index editables [e] k = [] then st.extras k
       else some (((st.extras k).getD []) ++ providedFor index editables [e] k)) := by
  obtain ⟨p, v⟩ := e
  cases p with
  | root n => simp [specStep, providedFor]
  | python kk => simp [specStep, providedFor]
  | package n extra marker url =>
    cases extra with
    | none =>
      cases marker with
      | some m => cases url with
        | none => simp [specStep, providedFor]
        | some u => simp [specStep, providedFor]
      | none =>
        cases url with
        | none => simp [specStep, providedFor]
        | some u => simp [specStep, providedFor]
    | some x =>
      cases marker with
      | some m => cases url with
        | none => simp [specStep, providedFor]
        | some u => simp [specStep, providedFor]
      | none =>
        cases url with
        | none =>
          by_cases hpv : extraProvided index editables n v none x
          · by_cases hk : n = k
            · subst hk; simp [specStep, providedFor, hpv, mapInsert]
            · simp [specStep, providedFor, hpv, hk, mapInsert, Ne.symm hk]
          · simp [specStep, providedFor, hpv]
        | some u =>
          by_cases hpv : extraProvided index editables n v (some u) x
          · by_cases hk : n = k
            · subst hk; simp [specStep, providedFor, hpv, mapInsert]
            · simp [specStep, providedFor, hpv, hk, mapInsert, Ne.symm hk]
          · simp [specStep, providedFor, hpv]

theorem specFold_extras (index : InMemoryIndex) (preferences : Preferences)
    (editables : Editables) (pins : PackageName → Version → Option Dist) :
    ∀ (l : List (PubGrubPackage × Version)) (st : BuildState) (k : PackageName),
    ((l.foldl (specStep index preferences editables pins) st).extras k) =
      (if providedFor index editables l k = [] then st.extras k
       else some (((st.extras k).getD []) ++ providedFor index editables l k)) := by
  intro l
  induction l with
  | nil => intro st k; simp [providedFor]
  | cons e rest ih =>
    intro st k
    rw [List.foldl_cons, ih, specStep_extras,
      show e :: rest = [e] ++ rest from rfl, providedFor_append]
    rcases h1 : providedFor index editables [e] k with _ | ⟨x, xs⟩
    · simp
    · rcases h2 : providedFor index editables rest k with _ | ⟨y, ys⟩
      · simp
      · simp [List.append_assoc]

end UvRes

namespace UvRes

theorem forkFor_append (l l' : List (PubGrubPackage × Version)) (key : PackageName × Version) :
    forkFor (l ++ l') key = forkFor l key ++ forkFor l' key := by
  simp [forkFor, List.filterMap_append]

theorem extendOr_append (t : MarkerTree) (ms ms' : List MarkerTree) :
    extendOr t (ms ++ ms') = extendOr (extendOr t ms) ms' := by
  simp [extendOr, List.foldl_append]

theorem specStep_markers (index : InMemoryIndex) (preferences : Preferences)
    (editables : Editables) (pins : PackageName → Version → Option Dist)
    (st : BuildState) (e : PubGrubPackage × Version) (key : PackageName × Version) :
    (specStep index preferences editables pins st e).markers key =
      (match forkFor [e] key with
       | [] => st.markers key
       | ms => some (extendOr ((st.markers key).getD (.or [])) ms)) := by
  obtain ⟨p, v⟩ := e
  cases p with
  | root n => simp [specStep, forkFor]
  | python kk => simp [specStep, forkFor]
  | package n extra marker url =>
    cases extra with
    | none =>
      cases marker with
      | some m =>
        cases url with
        | none =>
          by_cases hk : key = (n, v)
          · subst hk
            simp [specStep, forkFor, mapInsert, extendOr]
          · have hk' : ¬((n, v) = key) := fun hcontra => hk hcontra.symm
            simp [specStep, forkFor, mapInsert, hk, hk']
        | some u => simp [specStep, forkFor]
      | none =>
        cases url with
        | none => simp [specStep, forkFor]
        | some u => simp [specStep, forkFor]
    | some x =>
      cases marker with
      | some m => cases url with
        | none => simp [specStep, forkFor]
        | some u => simp [specStep, forkFor]
      | none =>
        cases url with
        | none => simp only [specStep, forkFor]; split <;> simp
        | some u => simp only [specStep, forkFor]; split <;> simp

theorem specFold_markers (index : InMemoryIndex) (preferences : Preferences)
    (editables : Editables) (pins : PackageName → Version → Option Dist) :
    ∀ (l : List (PubGrubPackage × Version)) (st : BuildState) (key : PackageName × Version),
    ((l.foldl (specStep index preferences editables pins) st).markers key) =
      (match forkFor l key with
       | [] => st.markers key
       | ms => some (extendOr ((st.markers key).getD (.or [])) ms)) := by
  intro l
  induction l with
  | nil => intro st key; simp [forkFor]
  | cons e rest ih =>
    intro st key
    rw [List.foldl_cons, ih, specStep_markers,
      show e :: rest = [e] ++ rest from rfl, forkFor_append]
    rcases h1 : forkFor [e] key with _ | ⟨m, ms⟩
    · simp
    · rcases h2 : forkFor rest key with _ | ⟨m2, ms2⟩
      · simp
      · simp only [Option.getD_some]
        rw [← extendOr_append]
        simp

theorem missedFor_append (index : InMemoryIndex) (editables : Editables)
    (pins : PackageName → Version → Option Dist)
    (l l' : List (PubGrubPackage × Version)) :
    missedFor index editables pins (l ++ l') =
      missedFor index editables pins l ++ missedFor index editables pins l' := by
  simp [missedFor, List.filterMap_append]

theorem specStep_diagnostics (index : InMemoryIndex) (preferences : Preferences)
    (editables : Editables) (pins : PackageName → Version → Option Dist)
    (st : BuildState) (e : PubGrubPackage × Version) :
    (specStep index preferences editables pins st e).diagnostics =
      st.diagnostics ++ missedFor index editables pins [e] := by
  obtain ⟨p, v⟩ := e
  cases p with
  | root n => simp [specStep, missedFor, diagFor]
  | python kk => simp [specStep, missedFor, diagFor]
  | package n extra marker url =>
    cases extra with
    | none =>
      cases marker with
      | some m => cases url with
        | none => simp [specStep, missedFor, diagFor]
        | some u => simp [specStep, missedFor, diagFor]
      | none =>
        cases url with
        | none => simp [specStep, missedFor, diagFor]
        | some u => simp [specStep, missedFor, diagFor]
    | some x =>
      cases marker with
      | some m => cases url with
        | none => simp [specStep, missedFor, diagFor]
        | some u => simp [specStep, missedFor, diagFor]
      | none =>
        cases url with
        | none =>
          by_cases hpv : extraProvided index editables n v none x
          · simp [specStep, missedFor, diagFor, hpv]
          · simp only [specStep, hpv, Bool.false_eq_true, if_false]
            cases hd : diagFor index editables pins (.package n (some x) none none, v) <;>
              simp [missedFor, hd]
        | some u =>
          by_cases hpv : extraProvided index editables n v (some u) x
          · simp [specStep, missedFor, diagFor, hpv]
          · simp only [specStep, hpv, Bool.false_eq_true, if_false]
            cases hd : diagFor index editables pins (.package n (some x) none (some u), v) <;>
              simp [missedFor, hd]

theorem specFold_diagnostics (index : InMemoryIndex) (preferences : Preferences)
    (editables : Editables) (pins : PackageName → Version → Option Dist) :
    ∀ (l : List (PubGrubPackage × Version)) (st : BuildState),
    ((l.foldl (specStep index preferences editables pins) st).diagnostics) =
      st.diagnostics ++ missedFor index editables pins l := by
  intro l
  induction l with
  | nil => intro st; simp [missedFor]
  | cons e rest ih =>
    intro st
    rw [List.foldl_cons, ih, specStep_diagnostics,
      show e :: rest = [e] ++ rest from rfl, missedFor_append, List.append_assoc]

theorem specStep_nodesLen (index : InMemoryIndex) (preferences : Preferences)
    (editables : Editables) (pins : PackageName → Version → Option Dist)
    (st : BuildState) (e : PubGrubPackage × Version) :
    (specStep index preferences editables pins st e).g.nodes.length =
      st.g.nodes.length + (crNames [e]).length := by
  obtain ⟨p, v⟩ := e
  cases p with
  | root n => simp [specStep, crNames]
  | python kk => simp [specStep, crNames]
  | package n extra marker url =>
    cases extra with
    | none =>
      cases marker with
      | some m => cases url with
        | none => simp [specStep, crNames]
        | some u => simp [specStep, crNames]
      | none =>
        cases url with
        | none => simp [specStep, crNames, Graph.addNode]
        | some u => simp [specStep, crNames, Graph.addNode]
    | some x =>
      cases marker with
      | some m => cases url with
        | none => simp [specStep, crNames]
        | some u => simp [specStep, crNames]
      | none =>
        cases url with
        | none => simp only [specStep, crNames]; split <;> simp
        | some u => simp only [specStep, crNames]; split <;> simp

theorem specFold_nodesLen (index : InMemoryIndex) (preferences : Preferences)
    (editables : Editables) (pins : PackageName → Version → Option Dist) :
    ∀ (l : List (PubGrubPackage × Version)) (st : BuildState),
    ((l.foldl (specStep index preferences editables pins) st).g.nodes.length) =
      st.g.nodes.length + (crNames l).length := by
  intro l
  induction l with
  | nil => intro st; simp [crNames]
  | cons e rest ih =>
    intro st
    rw [List.foldl_cons, ih, specStep_nodesLen,
      show e :: rest = [e] ++ rest from rfl, crNames_append]
    simp [Nat.add_assoc, List.length_append]

end UvRes

namespace UvRes

theorem specStep_inverse_unchanged (index : InMemoryIndex) (preferences : Preferences)
    (editables : Editables) (pins : PackageName → Version → Option Dist)
    (st : BuildState) (e : PubGrubPackage × Version)
    (h : crNames [e] = []) :
    (specStep index preferences editables pins st e).inverse = st.inverse := by
  obtain ⟨p, v⟩ := e
  cases p with
  | root n => rfl
  | python kk => rfl
  | package n extra marker url =>
    cases extra with
    | none =>
      cases marker with
      | some m => cases url with | none => rfl | some u => rfl
      | none => simp [crNames] at h
    | some x =>
      cases marker with
      | some m => cases url with | none => rfl | some u => rfl
      | none =>
        cases url with
        | none => simp only [specStep]; split <;> rfl
        | some u => simp only [specStep]; split <;> rfl

theorem specStep_inverse_hit (index : InMemoryIndex) (preferences : Preferences)
    (editables : Editables) (pins : PackageName → Version → Option Dist)
    (st : BuildState) (n : PackageName) (v : Version) (u : Option VerbatimUrl) :
    (specStep index preferences editables pins st (.package n none none u, v)).inverse n =
      some st.g.nodes.length := by
  cases u with
  | none => simp [specStep, mapInsert]
  | some url => simp [specStep, mapInsert]

theorem specStep_inverse_mono (index : InMemoryIndex) (preferences : Preferences)
    (editables : Editables) (pins : PackageName → Version → Option Dist)
    (st : BuildState) (e : PubGrubPackage × Version) (n : PackageName)
    (h : (st.inverse n).isSome) :
    ((specStep index preferences editables pins st e).inverse n).isSome := by
  obtain ⟨p, v⟩ := e
  cases p with
  | root nn => exact h
  | python kk => exact h
  | package nn extra marker url =>
    cases extra with
    | none =>
      cases marker with
      | some m => cases url with | none => exact h | some u => exact h
      | none =>
        cases url with
        | none =>
          by_cases hn : n = nn
          · subst hn; simp [specStep, mapInsert]
          · simpa [specStep, mapInsert, hn] using h
        | some u =>
          by_cases hn : n = nn
          · subst hn; simp [specStep, mapInsert]
          · simpa [specStep, mapInsert, hn] using h
    | some x =>
      cases marker with
      | some m => cases url with | none => exact h | some u => exact h
      | none =>
        cases url with
        | none => simp only [specStep]; split <;> exact h
        | some u => simp only [specStep]; split <;> exact h

theorem specFold_inverse_mono (index : InMemoryIndex) (preferences : Preferences)
    (editables : Editables) (pins : PackageName → Version → Option Dist) :
    ∀ (l : List (PubGrubPackage × Version)) (st : BuildState) (n : PackageName),
    (st.inverse n).isSome →
    (((l.foldl (specStep index preferences editables pins) st).inverse n).isSome) := by
  intro l
  induction l with
  | nil => intro st n h; exact h
  | cons e rest ih =>
    intro st n h
    rw [List.foldl_cons]
    exact ih _ n (specStep_inverse_mono index preferences editables pins st e n h)

theorem specFold_inverse_some (index : InMemoryIndex) (preferences : Preferences)
    (editables : Editables) (pins : PackageName → Version → Option Dist) :
    ∀ (l : List (PubGrubPackage × Version)) (st : BuildState) (n : PackageName),
    n ∈ crNames l →
    (((l.foldl (specStep index preferences editables pins) st).inverse n).isSome) := by
  intro l
  induction l with
  | nil => intro st n h; simp [crNames] at h
  | cons e rest ih =>
    intro st n h
    rw [show e :: rest = [e] ++ rest from rfl, crNames_append, List.mem_append] at h
    rw [List.foldl_cons]
    rcases h with h | h
    · obtain ⟨p, v⟩ := e
      cases p with
      | root nn => simp [crNames] at h
      | python kk => simp [crNames] at h
      | package nn extra marker url =>
        cases extra with
        | none =>
          cases marker with
          | some m => simp [crNames] at h
          | none =>
            have hn : n = nn := by
              rcases url with _ | u <;> simpa [crNames] using h
            subst hn
            apply specFold_inverse_mono
            rw [specStep_inverse_hit]
            rfl
        | some x => simp [crNames] at h
    · exact ih _ n h

theorem specStep_invWf (index : InMemoryIndex) (preferences : Preferences)
    (editables : Editables) (pins : PackageName → Version → Option Dist)
    (hpc : pinCoherent pins)
    (st : BuildState) (e : PubGrubPackage × Version) (h : invWf st) :
    invWf (specStep index preferences editables pins st e) := by
  obtain ⟨p, v⟩ := e
  cases p with
  | root nn => exact h
  | python kk => exact h
  | package nn extra marker url =>
    cases extra with
    | none =>
      cases marker with
      | some m => cases url with | none => exact h | some u => exact h
      | none =>
        have key : invWf (specStep index preferences editables pins st
            (.package nn none none url, v)) := by
          intro m i hm
          have hstep : (specStep index preferences editables pins st
              (.package nn none none url, v)).inverse =
              mapInsert st.inverse nn st.g.nodes.length := by
            cases url with
            | none => rfl
            | some u => rfl
          have hnodes : (specStep index preferences editables pins st
              (.package nn none none url, v)).g.nodes =
              st.g.nodes ++ [ResolvedNode.mk (specDist index editables pins nn v url) none] := by
            cases url with
            | none => rfl
            | some u => rfl
          rw [hstep, mapInsert] at hm
          rw [hnodes]
          by_cases hmn : m = nn
          · subst hmn
            simp only [if_pos rfl] at hm
            obtain rfl : st.g.nodes.length = i := by injection hm
            refine ⟨by simp, ?_⟩
            rw [List.get?_concat_length]
            simp [specDist_name index editables pins hpc]
          · rw [if_neg hmn] at hm
            obtain ⟨hlt, hname⟩ := h m i hm
            refine ⟨by simp; omega, ?_⟩
            rw [List.get?_append hlt]
            exact hname
        exact key
    | some x =>
      cases marker with
      | some m => cases url with | none => exact h | some u => exact h
      | none =>
        cases url with
        | none => simp only [specStep]; split <;> exact h
        | some u => simp only [specStep]; split <;> exact h

theorem specFold_invWf (index : InMemoryIndex) (preferences : Preferences)
    (editables : Editables) (pins : PackageName → Version → Option Dist)
    (hpc : pinCoherent pins) :
    ∀ (l : List (PubGrubPackage × Version)) (st : BuildState), invWf st →
    invWf (l.foldl (specStep index preferences editables pins) st) := by
  intro l
  induction l with
  | nil => intro st h; exact h
  | cons e rest ih =>
    intro st h
    rw [List.foldl_cons]
    exact ih _ (specStep_invWf index preferences editables pins hpc st e h)

theorem specStep_invInj (index : InMemoryIndex) (preferences : Preferences)
    (editables : Editables) (pins : PackageName → Version → Option Dist)
    (st : BuildState) (e : PubGrubPackage × Version) (h : invInj st) :
    invInj (specStep index preferences editables pins st e) := by
  obtain ⟨hlt, hinj⟩ := h
  obtain ⟨p, v⟩ := e
  cases p with
  | root nn => exact ⟨hlt, hinj⟩
  | python kk => exact ⟨hlt, hinj⟩
  | package nn extra marker url =>
    cases extra with
    | none =>
      cases marker with
      | some m => cases url with | none => exact ⟨hlt, hinj⟩ | some u => exact ⟨hlt, hinj⟩
      | none =>
        have key : invInj (specStep index preferences editables pins st
            (.package nn none none url, v)) := by
          have hstep : (specStep index preferences editables pins st
              (.package nn none none url, v)).inverse =
              mapInsert st.inverse nn st.g.nodes.length := by
            cases url with
            | none => rfl
            | some u => rfl
          have hlen : (specStep index preferences editables pins st
              (.package nn none none url, v)).g.nodes.length =
              st.g.nodes.length + 1 := by
            cases url with
            | none => simp [specStep, Graph.addNode]
            | some u => simp [specStep, Graph.addNode]
          constructor
          · intro n i hn
            rw [hstep, mapInsert] at hn
            rw [hlen]
            by_cases hmn : n = nn
            · rw [if_pos hmn] at hn
              obtain rfl : st.g.nodes.length = i := by injection hn
              omega
            · rw [if_neg hmn] at hn
              have := hlt n i hn
              omega
          · intro n m i hn hm
            rw [hstep, mapInsert] at hn hm
            by_cases h1 : n = nn <;> by_cases h2 : m = nn
            · rw [h1, h2]
            · rw [if_pos h1] at hn
              rw [if_neg h2] at hm
              obtain rfl : st.g.nodes.length = i := by injection hn
              have := hlt m _ hm
              omega
            · rw [if_neg h1] at hn
              rw [if_pos h2] at hm
              obtain rfl : st.g.nodes.length = i := by injection hm
              have := hlt n _ hn
              omega
            · rw [if_neg h1] at hn
              rw [if_neg h2] at hm
              exact hinj n m i hn hm
        exact key
    | some x =>
      cases marker with
      | some m => cases url with | none => exact ⟨hlt, hinj⟩ | some u => exact ⟨hlt, hinj⟩
      | none =>
        cases url with
        | none =>
          simp only [specStep]; split <;> exact ⟨hlt, hinj⟩
        | some u =>
          simp only [specStep]; split <;> exact ⟨hlt, hinj⟩

theorem specFold_invInj (index : InMemoryIndex) (preferences : Preferences)
    (editables : Editables) (pins : PackageName → Version → Option Dist) :
    ∀ (l : List (PubGrubPackage × Version)) (st : BuildState), invInj st →
    invInj (l.foldl (specStep index preferences editables pins) st) := by
  intro l
  induction l with
  | nil => intro st h; exact h
  | cons e rest ih =>
    intro st h
    rw [List.foldl_cons]
    exact ih _ (specStep_invInj index preferences editables pins st e h)

end UvRes

namespace UvRes

theorem setWeightAt_concat (E : List GEdge) (a b : Nat) (w w' : RangeV) :
    setWeightAt (E ++ [(a, b, w)]) E.length w' = E ++ [(a, b, w')] := by
  induction E with
  | nil => rfl
  | cons e es ih => simp [setWeightAt, ih]

theorem weightAt_concat (nodes : List ResolvedNode) (E : List GEdge) (a b : Nat) (w : RangeV) :
    (Graph.mk nodes (E ++ [(a, b, w)])).weightAt E.length = w := by
  simp [Graph.weightAt, List.get?_concat_length]

theorem unionFold_concat (nodes : List ResolvedNode) :
    ∀ (rs : List RangeV) (E : List GEdge) (a b : Nat) (w : RangeV),
    rs.foldl (fun gg r => gg.unionIntoEdge E.length r) (Graph.mk nodes (E ++ [(a, b, w)])) =
      Graph.mk nodes (E ++ [(a, b, rs.foldl RangeV.unionR w)]) := by
  intro rs
  induction rs with
  | nil => intro E a b w; rfl
  | cons r rest ih =>
    intro E a b w
    rw [List.foldl_cons, List.foldl_cons]
    have h1 : (Graph.mk nodes (E ++ [(a, b, w)])).unionIntoEdge E.length r =
        Graph.mk nodes (E ++ [(a, b, w.unionR r)]) := by
      simp [Graph.unionIntoEdge, weightAt_concat, setWeightAt_concat]
    rw [h1, ih]

theorem findEdgeIdx_none (nodes : List ResolvedNode) (E : List GEdge) (a b : Nat)
    (h : ∀ ed ∈ E, ¬(ed.1 = a ∧ ed.2.1 = b)) :
    (Graph.mk nodes E).findEdgeIdx a b = none := by
  simp only [Graph.findEdgeIdx]
  rw [List.findIdx?_eq_none_iff]
  intro ed hed
  simpa using h ed hed

theorem addDepEntry_ok (inv : PackageName → Option Nat) (g : Graph)
    (d : DepNames × List RangeV) (a b : Nat)
    (ha : inv d.1.fromName = some a) (hb : inv d.1.toName = some b)
    (hfree : ∀ ed ∈ g.edges, ¬(ed.1 = a ∧ ed.2.1 = b)) :
    addDepEntry inv g d = .ok (Graph.mk g.nodes (g.edges ++ [(a, b, unionRs d.2)])) := by
  obtain ⟨nodes, E⟩ := g
  have hfind : (Graph.mk nodes E).findEdgeIdx a b = none := findEdgeIdx_none nodes E a b hfree
  have hupd : (Graph.mk nodes E).updateEdge a b RangeV.emptyR =
      ((Graph.mk nodes (E ++ [(a, b, RangeV.emptyR)])), E.length) := by
    unfold Graph.updateEdge
    rw [hfind]
  simp only [addDepEntry, ha, hb, hupd]
  congr 1
  exact unionFold_concat nodes d.2 E a b RangeV.emptyR

theorem addEdges_ok (inv : PackageName → Option Nat) :
    ∀ (deps : List (DepNames × List RangeV)) (g : Graph),
    (∀ d ∈ deps, (inv d.1.fromName).isSome ∧ (inv d.1.toName).isSome) →
    (∀ d ∈ deps, ∀ ed ∈ g.edges, ¬(ed.1 = (pairFor inv d).1 ∧ ed.2.1 = (pairFor inv d).2)) →
    deps.Pairwise (fun d d' => pairFor inv d ≠ pairFor inv d') →
    addEdges inv g deps = .ok (Graph.mk g.nodes (g.edges ++ deps.map (edgeFor inv))) := by
  intro deps
  induction deps with
  | nil => intro g _ _ _; obtain ⟨nodes, E⟩ := g; simp [addEdges, pure, Except.pure]
  | cons d rest ih =>
    intro g hres hfree hpw
    obtain ⟨hd, hrest⟩ := List.forall_mem_cons.mp hres
    obtain ⟨ha, hb⟩ := hd
    obtain ⟨a, ha⟩ := Option.isSome_iff_exists.mp ha
    obtain ⟨b, hb⟩ := Option.isSome_iff_exists.mp hb
    have hpair : pairFor inv d = (a, b) := by simp [pairFor, ha, hb]
    rw [addEdges, List.foldlM_cons]
    rw [addDepEntry_ok inv g d a b ha hb (by
      intro ed hed
      have := hfree d (by simp) ed hed
      rw [hpair] at this
      exact this)]
    rw [exc_bind_ok]
    have hres' : ∀ d' ∈ rest, (inv d'.1.fromName).isSome ∧ (inv d'.1.toName).isSome :=
      fun d' hd' => hrest d' hd'
    have hpw' : rest.Pairwise (fun d d' => pairFor inv d ≠ pairFor inv d') :=
      (List.pairwise_cons.mp hpw).2
    have hhead : ∀ d' ∈ rest, pairFor inv d ≠ pairFor inv d' :=
      (List.pairwise_cons.mp hpw).1
    have hfree' : ∀ d' ∈ rest, ∀ ed ∈ (Graph.mk g.nodes (g.edges ++ [(a, b, unionRs d.2)])).edges,
        ¬(ed.1 = (pairFor inv d').1 ∧ ed.2.1 = (pairFor inv d').2) := by
      intro d' hd' ed hed
      simp only [List.mem_append, List.mem_singleton] at hed
      rcases hed with hed | hed
      · exact hfree d' (by simp [hd']) ed hed
      · subst hed
        intro hcon
        obtain ⟨h1, h2⟩ := hcon
        apply hhead d' hd'
        rw [hpair]
        simp only at h1 h2
        rw [h1, h2]
    have := ih (Graph.mk g.nodes (g.edges ++ [(a, b, unionRs d.2)])) hres' hfree' hpw'
    rw [show addEdges inv (Graph.mk g.nodes (g.edges ++ [(a, b, unionRs d.2)])) rest =
        rest.foldlM (addDepEntry inv) (Graph.mk g.nodes (g.edges ++ [(a, b, unionRs d.2)]))
      from rfl] at this
    rw [this]
    simp only [List.map_cons, List.append_assoc, List.singleton_append]
    congr 2
    rw [show edgeFor inv d = (a, b, unionRs d.2) by simp [edgeFor, ha, hb]]

theorem unionIntoEdge_nodes (g : Graph) (i : Nat) (r : RangeV) :
    (g.unionIntoEdge i r).nodes = g.nodes := rfl

theorem unionFold_nodes (i : Nat) : ∀ (rs : List RangeV) (g0 : Graph),
    (rs.foldl (fun gg r => gg.unionIntoEdge i r) g0).nodes = g0.nodes := by
  intro rs
  induction rs with
  | nil => intro g0; rfl
  | cons r rest ih =>
    intro g0
    rw [List.foldl_cons, ih]
    rfl

theorem addDepEntry_nodes (inv : PackageName → Option Nat) (g : Graph)
    (d : DepNames × List RangeV) (g' : Graph)
    (h : addDepEntry inv g d = .ok g') : g'.nodes = g.nodes := by
  unfold addDepEntry at h
  cases hf : inv d.1.fromName with
  | none => rw [hf] at h; exact Except.noConfusion h
  | some a =>
    rw [hf] at h
    cases ht : inv d.1.toName with
    | none => rw [ht] at h; exact Except.noConfusion h
    | some b =>
      rw [ht] at h
      obtain rfl : _ = g' := Except.ok.inj h
      rw [unionFold_nodes]
      rcases hfi : g.findEdgeIdx a b with _ | i <;> simp [Graph.updateEdge, hfi]

theorem addEdges_nodes (inv : PackageName → Option Nat) :
    ∀ (deps : List (DepNames × List RangeV)) (g g' : Graph),
    addEdges inv g deps = .ok g' → g'.nodes = g.nodes := by
  intro deps
  induction deps with
  | nil =>
    intro g g' h
    obtain rfl : g = g' := Except.ok.inj h
    rfl
  | cons d rest ih =>
    intro g g' h
    rw [addEdges, List.foldlM_cons] at h
    cases hde : addDepEntry inv g d with
    | error msg => rw [hde, exc_bind_err] at h; exact Except.noConfusion h
    | ok g1 =>
      rw [hde, exc_bind_ok] at h
      rw [ih g1 g' h]
      exact addDepEntry_nodes inv g d g1 hde

end UvRes

namespace UvRes

theorem char_eq_of_toNat_eq {a b : Char} (h : a.toNat = b.toNat) : a = b := by
  apply Char.ext
  exact UInt32.ext h

theorem charsLe_total : ∀ as bs : List Char, charsLe as bs = true ∨ charsLe bs as = true := by
  intro as
  induction as with
  | nil => intro bs; left; rfl
  | cons a as ih =>
    intro bs
    cases bs with
    | nil => right; rfl
    | cons b bs =>
      by_cases hab : a.toNat = b.toNat
      · rcases ih bs with h | h
        · left; simpa [charsLe, hab] using h
        · right; simpa [charsLe, hab.symm] using h
      · rcases Nat.lt_or_ge a.toNat b.toNat with hlt | hge
        · left; simp [charsLe, hab, hlt]
        · right
          have hba : b.toNat < a.toNat := Nat.lt_of_le_of_ne hge (fun hc => hab hc.symm)
          have hne : ¬b.toNat = a.toNat := fun hc => hab hc.symm
          simp [charsLe, hne, hba]

theorem charsLe_trans : ∀ as bs cs : List Char,
    charsLe as bs = true → charsLe bs cs = true → charsLe as cs = true := by
  intro as
  induction as with
  | nil => intro bs cs _ _; rfl
  | cons a as ih =>
    intro bs cs hab hbc
    cases bs with
    | nil => simp [charsLe] at hab
    | cons b bs =>
      cases cs with
      | nil => simp [charsLe] at hbc
      | cons c cs =>
        simp only [charsLe] at hab hbc ⊢
        by_cases h1 : a.toNat = b.toNat <;> by_cases h2 : b.toNat = c.toNat
        · rw [if_pos h1] at hab
          rw [if_pos h2] at hbc
          rw [if_pos (h1.trans h2)]
          exact ih bs cs hab hbc
        · rw [if_pos h1] at hab
          rw [if_neg h2] at hbc
          rw [if_neg (h1 ▸ h2)]
          rw [h1]
          exact hbc
        · rw [if_neg h1] at hab
          rw [if_pos h2] at hbc
          rw [if_neg (fun hc => h1 (h2 ▸ hc)), ← h2]
          exact hab
        · rw [if_neg h1] at hab
          rw [if_neg h2] at hbc
          simp only [decide_eq_true_eq] at hab hbc
          have hac : a.toNat < c.toNat := Nat.lt_trans hab hbc
          rw [if_neg (Nat.ne_of_lt hac)]
          simp [hac]

theorem charsLe_antisymm : ∀ as bs : List Char,
    charsLe as bs = true → charsLe bs as = true → as = bs := by
  intro as
  induction as with
  | nil =>
    intro bs hab _
    cases bs with
    | nil => rfl
    | cons b bs => simp [charsLe] at *
  | cons a as ih =>
    intro bs hab hba
    cases bs with
    | nil => simp [charsLe] at hab
    | cons b bs =>
      simp only [charsLe] at hab hba
      by_cases h1 : a.toNat = b.toNat
      · rw [if_pos h1] at hab
        rw [if_pos h1.symm] at hba
        rw [char_eq_of_toNat_eq h1, ih bs hab hba]
      · rw [if_neg h1] at hab
        rw [if_neg (fun hc => h1 hc.symm)] at hba
        simp only [decide_eq_true_eq] at hab hba
        omega

theorem strLe_total (a b : String) : strLe a b = true ∨ strLe b a = true :=
  charsLe_total a.data b.data

theorem strLe_trans (a b c : String) (h1 : strLe a b = true) (h2 : strLe b c = true) :
    strLe a c = true :=
  charsLe_trans a.data b.data c.data h1 h2

theorem strLe_antisymm (a b : String) (h1 : strLe a b = true) (h2 : strLe b a = true) :
    a = b := by
  cases a with
  | mk da =>
    cases b with
    | mk db =>
      rw [charsLe_antisymm da db h1 h2]

theorem strLe_refl (a : String) : strLe a a = true := by
  rcases strLe_total a a with h | h <;> exact h

theorem keyLeB_total (a b : NodeKeyT) : keyLeB a b = true ∨ keyLeB b a = true := by
  cases a <;> cases b <;> simp [keyLeB] <;> apply strLe_total

theorem keyLeB_trans (a b c : NodeKeyT) (h1 : keyLeB a b = true) (h2 : keyLeB b c = true) :
    keyLeB a c = true := by
  cases a <;> cases b <;> cases c <;> simp_all [keyLeB] <;>
    first
    | exact strLe_trans _ _ _ h1 h2
    | rfl

theorem keyLeB_antisymm (a b : NodeKeyT) (h1 : keyLeB a b = true) (h2 : keyLeB b a = true) :
    a = b := by
  cases a <;> cases b <;> simp_all [keyLeB]
  · exact strLe_antisymm _ _ h1 h2
  · exact strLe_antisymm _ _ h1 h2

theorem entryLeB_total (a b : Nat × DNode) : EntryLE a b ∨ EntryLE b a := by
  unfold EntryLE entryLeB
  by_cases hk : a.2.keyOf = b.2.keyOf
  · rw [if_pos hk, if_pos hk.symm]
    rcases Nat.le_total a.1 b.1 with h | h
    · left; simpa using h
    · right; simpa using h
  · rw [if_neg hk, if_neg (fun hc => hk hc.symm)]
    exact keyLeB_total _ _

theorem entryLeB_trans (a b c : Nat × DNode) (h1 : EntryLE a b) (h2 : EntryLE b c) :
    EntryLE a c := by
  unfold EntryLE entryLeB at *
  by_cases hab : a.2.keyOf = b.2.keyOf <;> by_cases hbc : b.2.keyOf = c.2.keyOf
  · rw [if_pos hab] at h1
    rw [if_pos hbc] at h2
    rw [if_pos (hab.trans hbc)]
    simp only [decide_eq_true_eq] at h1 h2 ⊢
    omega
  · rw [if_pos hab] at h1
    rw [if_neg hbc] at h2
    rw [if_neg (hab ▸ hbc), hab]
    exact h2
  · rw [if_neg hab] at h1
    rw [if_pos hbc] at h2
    rw [if_neg (fun hc => hab (hbc ▸ hc)), ← hbc]
    exact h1
  · rw [if_neg hab] at h1
    rw [if_neg hbc] at h2
    by_cases hac : a.2.keyOf = c.2.keyOf
    · exact absurd (keyLeB_antisymm _ _ h1 (hac ▸ h2)) hab
    · rw [if_neg hac]
      exact keyLeB_trans _ _ _ h1 h2

theorem entryLeB_antisymm_of_ne_idx (a b : Nat × DNode)
    (h1 : EntryLE a b) (h2 : EntryLE b a) : a.2.keyOf = b.2.keyOf ∧ a.1 = b.1 := by
  unfold EntryLE entryLeB at h1 h2
  by_cases hk : a.2.keyOf = b.2.keyOf
  · rw [if_pos hk] at h1
    rw [if_pos hk.symm] at h2
    simp only [decide_eq_true_eq] at h1 h2
    exact ⟨hk, Nat.le_antisymm h1 h2⟩
  · rw [if_neg hk] at h1
    rw [if_neg (fun hc => hk hc.symm)] at h2
    exact absurd (keyLeB_antisymm _ _ h1 h2) hk

theorem sorted_perm_eq_of_mem_antisymm {α : Type} {le : α → α → Prop} :
    ∀ {l₁ l₂ : List α}, (∀ a ∈ l₁, ∀ b ∈ l₁, le a b → le b a → a = b) →
    l₁.Perm l₂ → l₁.Pairwise le → l₂.Pairwise le → l₁ = l₂ := by
  intro l₁
  induction l₁ with
  | nil =>
    intro l₂ _ hp _ _
    exact (List.Perm.nil_eq hp).symm.symm ▸ rfl
  | cons a t₁ ih =>
    intro l₂ hanti hp hs₁ hs₂
    cases l₂ with
    | nil => exact absurd hp.symm (by simp [List.Perm.eq_nil])
    | cons b t₂ =>
      have hab : a = b := by
        by_cases h : a = b
        · exact h
        · have hain : a ∈ b :: t₂ := hp.mem_iff.mp (by simp)
          have hbin : b ∈ a :: t₁ := hp.symm.mem_iff.mp (by simp)
          have hain' : a ∈ t₂ := by
            rcases List.mem_cons.mp hain with hc | hc
            · exact absurd hc h
            · exact hc
          have hbin' : b ∈ t₁ := by
            rcases List.mem_cons.mp hbin with hc | hc
            · exact absurd hc.symm h
            · exact hc
          have hle1 : le a b := (List.pairwise_cons.mp hs₁).1 b hbin'
          have hle2 : le b a := (List.pairwise_cons.mp hs₂).1 a hain'
          exact hanti a (by simp) b (by simp [hbin']) hle1 hle2
      subst hab
      have hpt : t₁.Perm t₂ := hp.cons_inv
      have ht : t₁ = t₂ := by
        apply ih _ hpt (List.pairwise_cons.mp hs₁).2 (List.pairwise_cons.mp hs₂).2
        intro x hx y hy hxy hyx
        exact hanti x (by simp [hx]) y (by simp [hy]) hxy hyx
      rw [ht]

end UvRes

namespace UvRes

theorem DepNames.eq_of_parts {a b : DepNames} (h1 : a.fromName = b.fromName)
    (h2 : a.toName = b.toName) : a = b := by
  cases a; cases b; simp_all

theorem addEdges_resolvable (inv : PackageName → Option Nat) :
    ∀ (deps : List (DepNames × List RangeV)) (g g' : Graph),
    addEdges inv g deps = .ok g' →
    ∀ d ∈ deps, (inv d.1.fromName).isSome ∧ (inv d.1.toName).isSome := by
  intro deps
  induction deps with
  | nil => intro g g' _ d hd; simp at hd
  | cons d0 rest ih =>
    intro g g' h d hd
    rw [addEdges, List.foldlM_cons] at h
    cases hde : addDepEntry inv g d0 with
    | error msg => rw [hde, exc_bind_err] at h; exact Except.noConfusion h
    | ok g1 =>
      rw [hde, exc_bind_ok] at h
      rcases List.mem_cons.mp hd with rfl | hd'
      · unfold addDepEntry at hde
        cases hf : inv d.1.fromName with
        | none => rw [hf] at hde; exact Except.noConfusion hde
        | some a =>
          rw [hf] at hde
          cases ht : inv d.1.toName with
          | none => rw [ht] at hde; exact Except.noConfusion hde
          | some b => exact ⟨by simp [hf], by simp [ht]⟩
      · exact ih g1 g' h d hd'

theorem filter_pair_singleton (inv : PackageName → Option Nat) :
    ∀ (l : List (DepNames × List RangeV)) (d : DepNames × List RangeV), d ∈ l →
    l.Pairwise (fun x y => pairFor inv x ≠ pairFor inv y) →
    ((l.map (edgeFor inv)).filter
        (fun ed => ed.1 == (pairFor inv d).1 && ed.2.1 == (pairFor inv d).2)) =
      [edgeFor inv d] := by
  intro l
  induction l with
  | nil => intro d hd; simp at hd
  | cons x rest ih =>
    intro d hd hpw
    obtain ⟨hx, hrest⟩ := List.pairwise_cons.mp hpw
    by_cases hpair : pairFor inv x = pairFor inv d
    · have hxd : d = x := by
        rcases List.mem_cons.mp hd with h | h
        · exact h
        · exact absurd hpair (hx d h)
      subst hxd
      rw [List.map_cons, List.filter_cons]
      have hnone : (rest.map (edgeFor inv)).filter
          (fun ed => ed.1 == (pairFor inv d).1 && ed.2.1 == (pairFor inv d).2) = [] := by
        rw [List.filter_eq_nil_iff]
        intro ed hed
        obtain ⟨y, hy, rfl⟩ := List.mem_map.mp hed
        have hne := hx y hy
        simp only [edgeFor, Bool.and_eq_true, beq_iff_eq, not_and]
        intro h1 h2
        apply hne
        have hyd : pairFor inv y = pairFor inv d := by
          simp only [pairFor] at h1 h2 ⊢
          rw [h1, h2]
        exact hyd.symm
      have hcond : ((edgeFor inv d).1 == (pairFor inv d).1 &&
          (edgeFor inv d).2.1 == (pairFor inv d).2) = true := by
        simp [edgeFor, pairFor]
      rw [if_pos hcond, hnone]
    · have hd' : d ∈ rest := by
        rcases List.mem_cons.mp hd with h | h
        · exact absurd (show pairFor inv x = pairFor inv d by rw [h]) hpair
        · exact h
      rw [List.map_cons, List.filter_cons]
      have hfalse : ((edgeFor inv x).1 == (pairFor inv d).1 &&
          (edgeFor inv x).2.1 == (pairFor inv d).2) = false := by
        rw [Bool.and_eq_false_iff]
        by_contra hcon
        push_neg at hcon
        obtain ⟨h1, h2⟩ := hcon
        rw [Bool.ne_false_iff, beq_iff_eq] at h1 h2
        apply hpair
        simp only [edgeFor, pairFor] at h1 h2 ⊢
        rw [h1, h2]
      rw [if_neg (by simp [hfalse])]
      exact ih d hd' hrest

theorem filter_fst_singleton :
    ∀ (l : List (DepNames × List RangeV)) (d : DepNames × List RangeV), d ∈ l →
    (l.map Prod.fst).Nodup →
    l.filter (fun x => decide (x.1 = d.1)) = [d] := by
  intro l
  induction l with
  | nil => intro d hd; simp at hd
  | cons x rest ih =>
    intro d hd hnd
    have hpw : (x :: rest).Pairwise (fun a b => a.1 ≠ b.1) := by
      rw [show (fun (a b : DepNames × List RangeV) => a.1 ≠ b.1) =
        (fun a b => Prod.fst a ≠ Prod.fst b) from rfl]
      exact (List.pairwise_map).mp hnd
    obtain ⟨hx, hrest⟩ := List.pairwise_cons.mp hpw
    by_cases hfst : x.1 = d.1
    · have hxd : d = x := by
        rcases List.mem_cons.mp hd with h | h
        · exact h
        · exact absurd hfst (hx d h)
      subst hxd
      rw [List.filter_cons]
      have hnone : rest.filter (fun x => decide (x.1 = d.1)) = [] := by
        rw [List.filter_eq_nil_iff]
        intro y hy
        simp only [decide_eq_true_eq]
        exact fun hc => (hx y hy) hc.symm
      rw [if_pos (by simp), hnone]
    · have hd' : d ∈ rest := by
        rcases List.mem_cons.mp hd with h | h
        · exact absurd (by rw [h]) hfst
        · exact h
      rw [List.filter_cons]
      rw [if_neg (by simp [hfst])]
      apply ih d hd'
      cases hnd with
      | cons _ h => exact h

theorem foldl_unionR_any : ∀ (rs : List RangeV) (acc : RangeV) (x : Version),
    (rs.foldl RangeV.unionR acc) x = (acc x || rs.any (fun r => r x)) := by
  intro rs
  induction rs with
  | nil => intro acc x; simp
  | cons r rest ih =>
    intro acc x
    rw [List.foldl_cons, ih]
    simp [RangeV.unionR, Bool.or_assoc]

theorem initState_invInj : invInj initState := by
  constructor
  · intro n i h; exact Option.noConfusion h
  · intro n m i h; exact Option.noConfusion h

/-- C1: for every ordered pair recorded in the dependency list (the solver
hands the builder one entry per ordered pair), the range stored on the
graph edge between the corresponding nodes is the union of all
per-requester ranges recorded for that pair across the whole dependency
list. -/
theorem edge_range_union
    (index : InMemoryIndex) (preferences : Preferences) (editables : Editables)
    (resolution : Resolution) (g : ResolutionGraph)
    (hok : fromState index preferences editables resolution = .ok g)
    (hnodup : (resolution.dependencies.map Prod.fst).Nodup)
    (names : DepNames) (rs : List RangeV)
    (hmem : (names, rs) ∈ resolution.dependencies) :
    ∃ st iu iv,
      buildNodes index preferences editables resolution.pins resolution.packages = .ok st
      ∧ st.inverse names.fromName = some iu
      ∧ st.inverse names.toName = some iv
      ∧ ∃ w, g.petgraph.edges.filter (fun ed => ed.1 == iu && ed.2.1 == iv) = [(iu, iv, w)]
          ∧ ∀ x, w x = (allRangesFor resolution.dependencies names).any (fun r => r x) := by
  obtain ⟨st, gr, hb, ha, hg⟩ := fromState_ok_elim index preferences editables resolution g hok
  obtain ⟨hallok, hst⟩ := (buildNodes_ok_iff index preferences editables resolution.pins
    resolution.packages st).mp hb
  have hres := addEdges_resolvable st.inverse resolution.dependencies st.g gr ha
  have hinj : invInj st := by
    rw [hst]
    exact specFold_invInj index preferences editables resolution.pins _ _ initState_invInj
  have hedges0 : st.g.edges = [] := by
    rw [hst]
    exact specFold_edges index preferences editables resolution.pins _ _
  have hpw : resolution.dependencies.Pairwise
      (fun x y => pairFor st.inverse x ≠ pairFor st.inverse y) := by
    have hpw0 : resolution.dependencies.Pairwise (fun a b => a.1 ≠ b.1) := by
      rw [show (fun (a b : DepNames × List RangeV) => a.1 ≠ b.1) =
        (fun a b => Prod.fst a ≠ Prod.fst b) from rfl]
      exact (List.pairwise_map).mp hnodup
    refine hpw0.imp_of_mem ?_
    intro x y hx hy hne hcon
    obtain ⟨hxf, hxt⟩ := hres x hx
    obtain ⟨hyf, hyt⟩ := hres y hy
    obtain ⟨xa, hxa⟩ := Option.isSome_iff_exists.mp hxf
    obtain ⟨xb, hxb⟩ := Option.isSome_iff_exists.mp hxt
    obtain ⟨ya, hya⟩ := Option.isSome_iff_exists.mp hyf
    obtain ⟨yb, hyb⟩ := Option.isSome_iff_exists.mp hyt
    simp only [pairFor, hxa, hxb, hya, hyb, Option.getD_some, Prod.mk.injEq] at hcon
    obtain ⟨h1, h2⟩ := hcon
    apply hne
    have hf : x.1.fromName = y.1.fromName :=
      hinj.2 x.1.fromName y.1.fromName xa hxa (h1 ▸ hya)
    have ht : x.1.toName = y.1.toName :=
      hinj.2 x.1.toName y.1.toName xb hxb (h2 ▸ hyb)
    exact DepNames.eq_of_parts hf ht
  have haok := addEdges_ok st.inverse resolution.dependencies st.g hres
    (by rw [hedges0]; intro d hd ed hed; simp at hed) hpw
  have hgr : gr = Graph.mk st.g.nodes
      (st.g.edges ++ resolution.dependencies.map (edgeFor st.inverse)) :=
    Except.ok.inj (ha.symm.trans haok)
  obtain ⟨hf, ht⟩ := hres (names, rs) hmem
  obtain ⟨iu, hiu⟩ := Option.isSome_iff_exists.mp hf
  obtain ⟨iv, hiv⟩ := Option.isSome_iff_exists.mp ht
  refine ⟨st, iu, iv, hb, hiu, hiv, unionRs rs, ?_, ?_⟩
  · rw [hg]
    simp only
    rw [hgr, hedges0, List.nil_append]
    have hpd : pairFor st.inverse (names, rs) = (iu, iv) := by
      simp [pairFor, hiu, hiv]
    have := filter_pair_singleton st.inverse resolution.dependencies (names, rs) hmem hpw
    rw [hpd] at this
    simp only at this
    rw [this]
    simp [edgeFor, hiu, hiv, hpd]
  · intro x
    have hsingle : resolution.dependencies.filter (fun d => decide (d.1 = names)) =
        [(names, rs)] :=
      filter_fst_singleton resolution.dependencies (names, rs) hmem hnodup
    rw [allRangesFor, hsingle]
    simp only [List.flatMap_cons, List.flatMap_nil, List.append_nil]
    rw [show unionRs rs x = (rs.foldl RangeV.unionR RangeV.emptyR) x from rfl,
      foldl_unionR_any]
    simp [RangeV.emptyR]

end UvRes

namespace UvRes

/-- Witness for C1: the two-node input with ranges `>=1` and `>=3`
requested for the pair `(a, b)`. -/
theorem edge_range_union_witness :
    ∃ st iu iv,
      buildNodes emptyIndex emptyPrefs noEditables resC1.pins resC1.packages = .ok st
      ∧ st.inverse (DepNames.mk "a" "b").fromName = some iu
      ∧ st.inverse (DepNames.mk "a" "b").toName = some iv
      ∧ ∃ w, ((fromState emptyIndex emptyPrefs noEditables resC1).toOption.getD
            emptyRG).petgraph.edges.filter (fun ed => ed.1 == iu && ed.2.1 == iv) =
          [(iu, iv, w)]
          ∧ ∀ x, w x =
              (allRangesFor resC1.dependencies (DepNames.mk "a" "b")).any (fun r => r x) :=
  edge_range_union emptyIndex emptyPrefs noEditables resC1
    ((fromState emptyIndex emptyPrefs noEditables resC1).toOption.getD emptyRG)
    (by rfl) (by decide) (DepNames.mk "a" "b") [rangeGe 1, rangeGe 3]
    (by simp [resC1])

end UvRes

namespace UvRes

/-- C2 counterexample: a selected `(name, version)` with no pin makes
`from_state` abort through a panic (the `expect` on the pin table), not
return a `ResolveError` to the caller. -/
theorem missing_pin_panic_counterexample :
    fromState emptyIndex emptyPrefs noEditables resC2 =
      .error (.assertionFailure "Every package should be pinned")
    ∧ ∀ msg, fromState emptyIndex emptyPrefs noEditables resC2 ≠ .error (.resolve msg) := by
  constructor
  · rfl
  · intro msg h
    exact BuildErr.noConfusion (Except.error.inj h)

/-- C2 (amended): a missing pin for a selected version and missing
metadata for a selected package abort construction through a panic
(assertion failure); a distribution materialization failure (here: an
editable that fails to build) is what surfaces as a returned
`ResolveError`.  In every case no graph is produced. -/
theorem fatal_error_channels
    (index : InMemoryIndex) (preferences : Preferences) (editables : Editables)
    (name : PackageName) (version : Version) (x : ExtraName)
    (pins : PackageName → Version → Option Dist)
    (deps : List (DepNames × List RangeV)) :
    (editables name = none → pins name version = none →
      fromState index preferences editables
        { packages := [(.package name none none none, [(version, none)])]
          pins := pins
          dependencies := deps } =
        .error (.assertionFailure "Every package should be pinned"))
    ∧ (editables name = none →
        index.distributions (PackageId.registry name version) = none →
        fromState index preferences editables
          { packages := [(.package name (some x) none none, [(version, none)])]
            pins := pins
            dependencies := deps } =
          .error (.assertionFailure ("Every package should have metadata: "
            ++ (PackageId.registry name version).render)))
    ∧ (∀ e md, editables name = some (e, md) → e.valid = false →
        fromState index preferences editables
          { packages := [(.package name none none none, [(version, none)])]
            pins := pins
            dependencies := deps } =
          .error (.resolve ("failed to build editable: " ++ e.url.given))) := by
  refine ⟨?_, ?_, ?_⟩
  · intro h1 h2
    have hb : buildNodes index preferences editables pins
        [(.package name none none none, [(version, none)])] =
        .error (.assertionFailure "Every package should be pinned") := by
      rw [buildNodes_eq_entries]
      simp only [entriesOf, List.flatMap_cons, List.flatMap_nil, List.map_cons, List.map_nil,
        List.append_nil, List.foldlM_cons]
      have hpe : processEntry index preferences editables pins initState
          (.package name none none none) version =
          .error (.assertionFailure "Every package should be pinned") := by
        simp [processEntry, h1, h2, exc_bind_err]
      rw [hpe, exc_bind_err]
    unfold fromState
    rw [hb, exc_bind_err]
  · intro h1 h2
    have hb : buildNodes index preferences editables pins
        [(.package name (some x) none none, [(version, none)])] =
        .error (.assertionFailure ("Every package should have metadata: "
          ++ (PackageId.registry name version).render)) := by
      rw [buildNodes_eq_entries]
      simp only [entriesOf, List.flatMap_cons, List.flatMap_nil, List.map_cons, List.map_nil,
        List.append_nil, List.foldlM_cons]
      have hpe : processEntry index preferences editables pins initState
          (.package name (some x) none none) version =
          .error (.assertionFailure ("Every package should have metadata: "
            ++ (PackageId.registry name version).render)) := by
        simp [processEntry, h1, h2, exc_bind_err]
      rw [hpe, exc_bind_err]
    unfold fromState
    rw [hb, exc_bind_err]
  · intro e md h1 h2
    have hb : buildNodes index preferences editables pins
        [(.package name none none none, [(version, none)])] =
        .error (.resolve ("failed to build editable: " ++ e.url.given)) := by
      rw [buildNodes_eq_entries]
      simp only [entriesOf, List.flatMap_cons, List.flatMap_nil, List.map_cons, List.map_nil,
        List.append_nil, List.foldlM_cons]
      have hpe : processEntry index preferences editables pins initState
          (.package name none none none) version =
          .error (.resolve ("failed to build editable: " ++ e.url.given)) := by
        simp [processEntry, h1, distFromEditable, h2, exc_bind_err]
      rw [hpe, exc_bind_err]
    unfold fromState
    rw [hb, exc_bind_err]

/-- Witness for the amended C2 at concrete inputs. -/
theorem fatal_error_channels_witness :
    fromState emptyIndex emptyPrefs noEditables resC2 =
      .error (.assertionFailure "Every package should be pinned")
    ∧ fromState emptyIndex emptyPrefs noEditables resC2x =
      .error (.assertionFailure ("Every package should have metadata: "
        ++ (PackageId.registry "a" 1).render))
    ∧ fromState emptyIndex emptyPrefs edsBad resC2 =
      .error (.resolve ("failed to build editable: " ++ badEditable.url.given)) :=
  ⟨(fatal_error_channels emptyIndex emptyPrefs noEditables "a" 1 "x"
      (fun _ _ => none) []).1 rfl rfl,
   (fatal_error_channels emptyIndex emptyPrefs noEditables "a" 1 "x"
      (fun _ _ => none) []).2.1 rfl rfl,
   (fatal_error_channels emptyIndex emptyPrefs edsBad "a" 1 "x"
      (fun _ _ => none) []).2.2 badEditable mdEmpty rfl rfl⟩

/-- C3: a graph holding one non-editable URL-pinned distribution is built
fine, but rendering it aborts at the renderer's `unreachable!` instead of
emitting the `a @ https://u/a.tgz` line (which `Node::verbatim` itself
would produce, as the last conjunct shows). -/
theorem url_node_render_unreachable :
    (fromState emptyIndex emptyPrefs noEditables resC3).map
        (fun g => displayFmt g defaultOpts) =
      .ok (.error (.assertionFailure "internal error: entered unreachable code"))
    ∧ DNode.verbatim (.distributionN "a" (.url "a" urlA) [] none) = "a @ https://u/a.tgz" := by
  constructor
  · rfl
  · rfl

end UvRes

namespace UvRes

theorem extendOr_or (ms : List MarkerTree) :
    ∀ l : List MarkerTree, extendOr (.or l) ms = .or (l ++ ms) := by
  induction ms with
  | nil => intro l; simp [extendOr]
  | cons m rest ih =>
    intro l
    rw [show extendOr (.or l) (m :: rest) = extendOr ((MarkerTree.or l).orInto m) rest from rfl]
    rw [show (MarkerTree.or l).orInto m = .or (l ++ [m]) from rfl, ih]
    simp

theorem evalWith_or (f : MarkerExpression → Bool) (l : List MarkerTree) :
    (MarkerTree.or l).evalWith f = l.any (fun t => t.evalWith f) := by
  rw [show (MarkerTree.or l).evalWith f = MarkerTree.evalWith.goAny f l from rfl]
  induction l with
  | nil => rfl
  | cons t ts ih => rw [List.any_cons, ← ih]; rfl

theorem any_perm {α : Type} {l₁ l₂ : List α} (h : l₁.Perm l₂) (p : α → Bool) :
    l₁.any p = l₂.any p := by
  cases h1 : l₁.any p <;> cases h2 : l₂.any p
  · rfl
  · rw [List.any_eq_true] at h2
    obtain ⟨x, hx, hpx⟩ := h2
    rw [List.any_eq_false] at h1
    exact absurd hpx (by simpa using h1 x (h.mem_iff.mpr hx))
  · rw [List.any_eq_true] at h1
    obtain ⟨x, hx, hpx⟩ := h1
    rw [List.any_eq_false] at h2
    exact absurd hpx (by simpa using h2 x (h.mem_iff.mp hx))
  · rfl

theorem fromState_components
    (index : InMemoryIndex) (preferences : Preferences) (editables : Editables)
    (resolution : Resolution) (g : ResolutionGraph)
    (hok : fromState index preferences editables resolution = .ok g) :
    g.markers = (specFinal index preferences editables resolution.pins
        resolution.packages).markers
    ∧ g.extras = (specFinal index preferences editables resolution.pins
        resolution.packages).extras
    ∧ g.hashes = (specFinal index preferences editables resolution.pins
        resolution.packages).hashes
    ∧ g.diagnostics = (specFinal index preferences editables resolution.pins
        resolution.packages).diagnostics
    ∧ g.petgraph.nodes = (specFinal index preferences editables resolution.pins
        resolution.packages).g.nodes
    ∧ g.editables = editables := by
  obtain ⟨st, gr, hb, ha, hg⟩ := fromState_ok_elim index preferences editables resolution g hok
  obtain ⟨-, hst⟩ := (buildNodes_ok_iff index preferences editables resolution.pins
    resolution.packages st).mp hb
  have hnodes := addEdges_nodes st.inverse resolution.dependencies st.g gr ha
  subst hg
  rw [← hst]
  exact ⟨rfl, rfl, rfl, rfl, hnodes, rfl⟩

/-- C7: a concrete identity with no extra, no URL and a fork marker adds
no node; its marker is accumulated by disjunction, so the stored tree at
`(name, version)` is the `Or` of all fork markers recorded for that key
over the whole input, and its evaluation (hence the disjunction it
denotes) is invariant under permutation of the input. -/
theorem fork_marker_disjunction
    (index : InMemoryIndex) (preferences : Preferences) (editables : Editables)
    (resolution : Resolution) (g : ResolutionGraph)
    (hok : fromState index preferences editables resolution = .ok g)
    (name : PackageName) (v : Version) (m : MarkerTree)
    (hmem : m ∈ forkFor (entriesOf resolution.packages) (name, v)) :
    g.markers (name, v) = some (.or (forkFor (entriesOf resolution.packages) (name, v)))
    ∧ g.petgraph.nodes.length = (crNames (entriesOf resolution.packages)).length
    ∧ (∀ f, (MarkerTree.or (forkFor (entriesOf resolution.packages) (name, v))).evalWith f =
        (forkFor (entriesOf resolution.packages) (name, v)).any (fun t => t.evalWith f))
    ∧ (∀ (packages' : List (PubGrubPackage × List (Version × Option MarkerTree)))
        (g' : ResolutionGraph),
        packages'.Perm resolution.packages →
        fromState index preferences editables
          { packages := packages'
            pins := resolution.pins
            dependencies := resolution.dependencies } = .ok g' →
        ∃ ms', g'.markers (name, v) = some (.or ms')
          ∧ ms'.Perm (forkFor (entriesOf resolution.packages) (name, v))
          ∧ ∀ f, (MarkerTree.or ms').evalWith f =
              (MarkerTree.or (forkFor (entriesOf resolution.packages) (name, v))).evalWith f) := by
  obtain ⟨hm, -, -, -, hn, -⟩ :=
    fromState_components index preferences editables resolution g hok
  have hmarkers : ∀ key, (specFinal index preferences editables resolution.pins
      resolution.packages).markers key =
      (match forkFor (entriesOf resolution.packages) key with
       | [] => none
       | ms => some (extendOr (.or []) ms)) := by
    intro key
    unfold specFinal
    rw [specFold_markers]
    rfl
  have hperm_fork : ∀ (packages' : List (PubGrubPackage × List (Version × Option MarkerTree))),
      packages'.Perm resolution.packages →
      (forkFor (entriesOf packages') (name, v)).Perm
        (forkFor (entriesOf resolution.packages) (name, v)) := by
    intro packages' hp
    unfold forkFor entriesOf
    exact List.Perm.filterMap _ (List.Perm.flatMap_right _ hp)
  refine ⟨?_, ?_, ?_, ?_⟩
  · rw [hm, hmarkers]
    rcases hf : forkFor (entriesOf resolution.packages) (name, v) with _ | ⟨m0, ms0⟩
    · rw [hf] at hmem; simp at hmem
    · simp only
      rw [extendOr_or (m0 :: ms0) []]
      rfl
  · rw [hn]
    unfold specFinal
    rw [specFold_nodesLen]
    simp [initState]
  · intro f
    exact evalWith_or f _
  · intro packages' g' hp hok'
    obtain ⟨hm', -, -, -, -, -⟩ :=
      fromState_components index preferences editables
        { packages := packages'
          pins := resolution.pins
          dependencies := resolution.dependencies } g' hok'
    have hmarkers' : (specFinal index preferences editables resolution.pins
        packages').markers (name, v) =
        (match forkFor (entriesOf packages') (name, v) with
         | [] => none
         | ms => some (extendOr (.or []) ms)) := by
      unfold specFinal
      rw [specFold_markers]
      rfl
    refine ⟨forkFor (entriesOf packages') (name, v), ?_, hperm_fork packages' hp, ?_⟩
    · rw [hm']
      simp only
      rw [hmarkers']
      rcases hf : forkFor (entriesOf packages') (name, v) with _ | ⟨m0, ms0⟩
      · have := (hperm_fork packages' hp).symm.mem_iff.mp hmem
        rw [hf] at this
        simp at this
      · simp only
        rw [extendOr_or (m0 :: ms0) []]
        rfl
    · intro f
      rw [evalWith_or, evalWith_or]
      exact any_perm (hperm_fork packages' hp) _

/-- Witness for C7: one pin selected under the markers
`sys_platform == "linux"` and `sys_platform == "darwin"`. -/
theorem fork_marker_disjunction_witness :
    ((fromState emptyIndex emptyPrefs noEditables resC7).toOption.getD emptyRG).markers
        ("a", 1) = some (.or (forkFor (entriesOf resC7.packages) ("a", 1)))
    ∧ ((fromState emptyIndex emptyPrefs noEditables resC7).toOption.getD
        emptyRG).petgraph.nodes.length = (crNames (entriesOf resC7.packages)).length
    ∧ (∀ f, (MarkerTree.or (forkFor (entriesOf resC7.packages) ("a", 1))).evalWith f =
        (forkFor (entriesOf resC7.packages) ("a", 1)).any (fun t => t.evalWith f))
    ∧ (∀ (packages' : List (PubGrubPackage × List (Version × Option MarkerTree)))
        (g' : ResolutionGraph),
        packages'.Perm resC7.packages →
        fromState emptyIndex emptyPrefs noEditables
          { packages := packages'
            pins := resC7.pins
            dependencies := resC7.dependencies } = .ok g' →
        ∃ ms', g'.markers ("a", 1) = some (.or ms')
          ∧ ms'.Perm (forkFor (entriesOf resC7.packages) ("a", 1))
          ∧ ∀ f, (MarkerTree.or ms').evalWith f =
              (MarkerTree.or (forkFor (entriesOf resC7.packages) ("a", 1))).evalWith f) :=
  fork_marker_disjunction emptyIndex emptyPrefs noEditables resC7
    ((fromState emptyIndex emptyPrefs noEditables resC7).toOption.getD emptyRG)
    (by rfl) "a" 1 markerLinux
    (by simp [forkFor, entriesOf, resC7])

end UvRes

namespace UvRes

theorem hashStep_cases (index : InMemoryIndex) (preferences : Preferences)
    (n : PackageName) (v : Version) (acc : Option (List Hash))
    (hacc : acc = none ∨ ∃ l, acc = some l ∧
      ((∃ v', preferences.matchHashes n v' = some l) ∨ l.Sorted (· ≤ ·))) :
    hashStep index preferences n v acc = none ∨
      ∃ l, hashStep index preferences n v acc = some l ∧
        ((∃ v', preferences.matchHashes n v' = some l) ∨ l.Sorted (· ≤ ·)) := by
  unfold hashStep
  cases hp : preferences.matchHashes n v with
  | some h => exact Or.inr ⟨h, rfl, Or.inl ⟨v, hp⟩⟩
  | none =>
    cases hi : index.packages n with
    | none => exact hacc
    | some vr =>
      cases vr with
      | notFound => exact hacc
      | found vm =>
        exact Or.inr ⟨_, rfl, Or.inr (List.sorted_insertionSort (· ≤ ·) (vm v))⟩

theorem hashFold_cases (index : InMemoryIndex) (preferences : Preferences) (n : PackageName) :
    ∀ (vs : List Version) (acc : Option (List Hash)),
    (acc = none ∨ ∃ l, acc = some l ∧
      ((∃ v', preferences.matchHashes n v' = some l) ∨ l.Sorted (· ≤ ·))) →
    (vs.foldl (fun a v => hashStep index preferences n v a) acc = none ∨
      ∃ l, vs.foldl (fun a v => hashStep index preferences n v a) acc = some l ∧
        ((∃ v', preferences.matchHashes n v' = some l) ∨ l.Sorted (· ≤ ·))) := by
  intro vs
  induction vs with
  | nil => intro acc hacc; exact hacc
  | cons v rest ih =>
    intro acc hacc
    rw [List.foldl_cons]
    exact ih _ (hashStep_cases index preferences n v acc hacc)

/-- C6: hash resolution for a concrete-real `(name, version)` pin:
preference hashes are stored verbatim; otherwise a `Found` version listing
stores that version's hashes sorted (a sorted permutation of the map's
list); otherwise no entry is stored.  Every stored list that did not come
verbatim from the preferences is sorted. -/
theorem hash_resolution
    (index : InMemoryIndex) (preferences : Preferences) (editables : Editables)
    (resolution : Resolution) (g : ResolutionGraph)
    (hok : fromState index preferences editables resolution = .ok g)
    (name : PackageName) (v : Version)
    (hone : crVersionsOf (entriesOf resolution.packages) name = [v]) :
    (∀ h, preferences.matchHashes name v = some h → g.hashes name = some h)
    ∧ (preferences.matchHashes name v = none →
        ∀ vm, index.packages name = some (.found vm) →
          g.hashes name = some (List.insertionSort (· ≤ ·) (vm v))
          ∧ (List.insertionSort (· ≤ ·) (vm v)).Sorted (· ≤ ·)
          ∧ (List.insertionSort (· ≤ ·) (vm v)).Perm (vm v))
    ∧ (preferences.matchHashes name v = none →
        (∀ vm, index.packages name ≠ some (.found vm)) →
        g.hashes name = none)
    ∧ (∀ n l, g.hashes n = some l →
        (∃ v', preferences.matchHashes n v' = some l) ∨ l.Sorted (· ≤ ·)) := by
  obtain ⟨-, -, hh, -, -, -⟩ :=
    fromState_components index preferences editables resolution g hok
  have hfold : ∀ k, g.hashes k =
      (crVersionsOf (entriesOf resolution.packages) k).foldl
        (fun a v => hashStep index preferences k v a) none := by
    intro k
    rw [hh]
    unfold specFinal
    rw [specFold_hashes]
    rfl
  have hsingle : g.hashes name = hashStep index preferences name v none := by
    rw [hfold, hone]
    rfl
  refine ⟨?_, ?_, ?_, ?_⟩
  · intro h hp
    rw [hsingle]
    unfold hashStep
    rw [hp]
  · intro hp vm hi
    rw [hsingle]
    unfold hashStep
    rw [hp, hi]
    exact ⟨rfl, List.sorted_insertionSort (· ≤ ·) (vm v),
      List.perm_insertionSort (· ≤ ·) (vm v)⟩
  · intro hp hnf
    rw [hsingle]
    unfold hashStep
    rw [hp]
    cases hi : index.packages name with
    | none => rfl
    | some vr =>
      cases vr with
      | notFound => rfl
      | found vm => exact absurd hi (hnf vm)
  · intro n l hl
    have := hashFold_cases index preferences n
      (crVersionsOf (entriesOf resolution.packages) n) none (Or.inl rfl)
    rw [← hfold] at this
    rcases this with h | ⟨l', hl', hc⟩
    · rw [hl] at h; exact Option.noConfusion h
    · rw [hl] at hl'
      obtain rfl : l = l' := Option.some.inj hl'.symm |>.symm
      exact hc

/-- Witness for C6: the `Found` listing `[5, 3, 4]` for `a==1` is stored
sorted. -/
theorem hash_resolution_witness :
    (∀ h, emptyPrefs.matchHashes "a" 1 = some h →
      ((fromState idxC6 emptyPrefs noEditables resC6).toOption.getD emptyRG).hashes "a" = some h)
    ∧ (emptyPrefs.matchHashes "a" 1 = none →
        ∀ vm, idxC6.packages "a" = some (.found vm) →
          ((fromState idxC6 emptyPrefs noEditables resC6).toOption.getD emptyRG).hashes "a" =
            some (List.insertionSort (· ≤ ·) (vm 1))
          ∧ (List.insertionSort (· ≤ ·) (vm 1)).Sorted (· ≤ ·)
          ∧ (List.insertionSort (· ≤ ·) (vm 1)).Perm (vm 1))
    ∧ (emptyPrefs.matchHashes "a" 1 = none →
        (∀ vm, idxC6.packages "a" ≠ some (.found vm)) →
        ((fromState idxC6 emptyPrefs noEditables resC6).toOption.getD emptyRG).hashes "a" = none)
    ∧ (∀ n l, ((fromState idxC6 emptyPrefs noEditables resC6).toOption.getD emptyRG).hashes n =
          some l →
        (∃ v', emptyPrefs.matchHashes n v' = some l) ∨ l.Sorted (· ≤ ·)) :=
  hash_resolution idxC6 emptyPrefs noEditables resC6
    ((fromState idxC6 emptyPrefs noEditables resC6).toOption.getD emptyRG)
    (by rfl) "a" 1 (by rfl)

end UvRes

namespace UvRes

theorem extraEntriesFor_mem (l : List (PubGrubPackage × Version)) (k : PackageName)
    (x : ExtraName) (v : Version) (u : Option VerbatimUrl) :
    (v, u) ∈ extraEntriesFor l k x ↔ (.package k (some x) none u, v) ∈ l := by
  unfold extraEntriesFor
  rw [List.mem_filterMap]
  constructor
  · rintro ⟨e, he, hfe⟩
    obtain ⟨p, v'⟩ := e
    cases p with
    | root n => exact Option.noConfusion hfe
    | python kk => exact Option.noConfusion hfe
    | package n extra marker url =>
      cases extra with
      | none => exact Option.noConfusion hfe
      | some y =>
        cases marker with
        | some m => exact Option.noConfusion hfe
        | none =>
          simp only [] at hfe
          by_cases hc : n = k ∧ y = x
          · rw [if_pos hc] at hfe
            obtain ⟨rfl, rfl⟩ := Prod.mk.injEq .. ▸ Prod.mk.inj (Option.some.inj hfe)
            rw [hc.1, hc.2] at he
            exact he
          · rw [if_neg hc] at hfe
            exact Option.noConfusion hfe
  · intro he
    exact ⟨(.package k (some x) none u, v), he, by simp⟩

theorem providedFor_mem (index : InMemoryIndex) (editables : Editables)
    (l : List (PubGrubPackage × Version)) (k : PackageName) (x : ExtraName) :
    x ∈ providedFor index editables l k ↔
      ∃ v u, (.package k (some x) none u, v) ∈ l
        ∧ extraProvided index editables k v u x = true := by
  unfold providedFor
  rw [List.mem_filterMap]
  constructor
  · rintro ⟨e, he, hfe⟩
    obtain ⟨p, v'⟩ := e
    cases p with
    | root n => exact Option.noConfusion hfe
    | python kk => exact Option.noConfusion hfe
    | package n extra marker url =>
      cases extra with
      | none => exact Option.noConfusion hfe
      | some y =>
        cases marker with
        | some m => exact Option.noConfusion hfe
        | none =>
          simp only [] at hfe
          by_cases hc : n = k ∧ extraProvided index editables n v' url y = true
          · rw [if_pos hc] at hfe
            obtain rfl : y = x := Option.some.inj hfe
            obtain ⟨rfl, hprov⟩ := hc
            exact ⟨v', url, he, hprov⟩
          · rw [if_neg hc] at hfe
            exact Option.noConfusion hfe
  · rintro ⟨v, u, he, hprov⟩
    exact ⟨(.package k (some x) none u, v), he, by simp [hprov]⟩

theorem diagFor_shape (index : InMemoryIndex) (editables : Editables)
    (pins : PackageName → Version → Option Dist) (hpc : pinCoherent pins)
    (e : PubGrubPackage × Version) (d : Diagnostic)
    (h : diagFor index editables pins e = some d) :
    ∃ n x u v dist, e = (.package n (some x) none u, v) ∧ d = .missingExtra dist x
      ∧ dist.nameOf = n ∧ extraProvided index editables n v u x = false := by
  obtain ⟨p, v⟩ := e
  cases p with
  | root n => exact Option.noConfusion h
  | python kk => exact Option.noConfusion h
  | package n extra marker url =>
    cases extra with
    | none => exact Option.noConfusion h
    | some x =>
      cases marker with
      | some m => exact Option.noConfusion h
      | none =>
        simp only [diagFor] at h
        by_cases hprov : extraProvided index editables n v url x = true
        · rw [if_pos hprov] at h
          exact Option.noConfusion h
        · rw [if_neg hprov] at h
          refine ⟨n, x, url, v, ?_⟩
          cases hed : editables n with
          | some pr =>
            obtain ⟨ed, md⟩ := pr
            rw [hed] at h
            obtain rfl : Diagnostic.missingExtra (.editable n ed) x = d := Option.some.inj h
            exact ⟨.editable n ed, rfl, rfl, rfl, Bool.not_eq_true _ ▸ hprov⟩
          | none =>
            rw [hed] at h
            cases hmd : index.distributions (pidFor n v url) with
            | none => rw [hmd] at h; exact Option.noConfusion h
            | some md =>
              rw [hmd] at h
              cases url with
              | none =>
                cases hp : pins n v with
                | none => rw [hp] at h; exact Option.noConfusion h
                | some pd =>
                  rw [hp] at h
                  obtain rfl : Diagnostic.missingExtra pd x = d := Option.some.inj h
                  exact ⟨pd, rfl, rfl, hpc n v pd hp, Bool.not_eq_true _ ▸ hprov⟩
              | some uu =>
                obtain rfl : Diagnostic.missingExtra (.url n (redirected index uu)) x = d :=
                  Option.some.inj h
                exact ⟨.url n (redirected index uu), rfl, rfl, rfl, Bool.not_eq_true _ ▸ hprov⟩

theorem diagFor_unprovided (index : InMemoryIndex) (editables : Editables)
    (pins : PackageName → Version → Option Dist)
    (n : PackageName) (x : ExtraName) (u : Option VerbatimUrl) (v : Version)
    (hok : entryOk index editables pins (.package n (some x) none u, v) = true)
    (hprov : extraProvided index editables n v u x = false) :
    diagFor index editables pins (.package n (some x) none u, v) =
      some (.missingExtra (specDist index editables pins n v u) x) := by
  simp only [diagFor]
  rw [if_neg (by rw [hprov]; exact Bool.false_ne_true)]
  simp only [entryOk] at hok
  simp only [extraProvided, metadataFor] at hprov
  simp only [specDist]
  cases hed : editables n with
  | some pr =>
    obtain ⟨ed, md⟩ := pr
    rfl
  | none =>
    rw [hed] at hok hprov
    cases hmd : index.distributions (pidFor n v u) with
    | none => rw [hmd] at hok; simp at hok
    | some md =>
      rw [hmd] at hok hprov
      simp only [decide_eq_true_eq] at hprov
      cases u with
      | none =>
        cases hp : pins n v with
        | none =>
          have hok' : (if x ∈ md.providesExtras then true
              else (pins n v).isSome) = true := hok
          rw [if_neg (by simpa using hprov), hp] at hok'
          simp at hok'
        | some pd => simp [hp]
      | some uu => simp

/-- C4: for a virtual-extra identity processed once for `(name, extra)`:
when the base distribution's metadata provides the extra, the extra is
recorded in `extras[name]` and no `MissingExtra` diagnostic for that
`(name, extra)` exists; otherwise a `MissingExtra` diagnostic carrying the
base distribution and the extra is recorded, the extra is not recorded,
and no node is added for the virtual identity (the node count is exactly
the concrete-real entry count).  Moreover a missing extra by itself never
aborts construction: an extra entry whose collaborator lookups succeed is
a successful iteration whether or not the extra is provided. -/
theorem extra_folding
    (index : InMemoryIndex) (preferences : Preferences) (editables : Editables)
    (resolution : Resolution) (g : ResolutionGraph)
    (hok : fromState index preferences editables resolution = .ok g)
    (hpc : pinCoherent resolution.pins)
    (name : PackageName) (x : ExtraName) (v : Version) (u : Option VerbatimUrl)
    (hone : extraEntriesFor (entriesOf resolution.packages) name x = [(v, u)]) :
    (extraProvided index editables name v u x = true →
      x ∈ (g.extras name).getD []
      ∧ ∀ d ∈ g.diagnostics, ∀ dist, d = .missingExtra dist x → dist.nameOf ≠ name)
    ∧ (extraProvided index editables name v u x = false →
      Diagnostic.missingExtra (specDist index editables resolution.pins name v u) x
          ∈ g.diagnostics
      ∧ x ∉ (g.extras name).getD []
      ∧ g.petgraph.nodes.length = (crNames (entriesOf resolution.packages)).length)
    ∧ (∀ n' v' x', editables n' = none →
        (index.distributions (PackageId.registry n' v')).isSome →
        (resolution.pins n' v').isSome →
        entryOk index editables resolution.pins (.package n' (some x') none none, v') = true) := by
  obtain ⟨-, hex, -, hdg, hn, -⟩ :=
    fromState_components index preferences editables resolution g hok
  obtain ⟨st, -, hb, -, -⟩ := fromState_ok_elim index preferences editables resolution g hok
  obtain ⟨hallok, -⟩ := (buildNodes_ok_iff index preferences editables resolution.pins
    resolution.packages st).mp hb
  have hextras : g.extras name =
      (if providedFor index editables (entriesOf resolution.packages) name = [] then none
       else some (providedFor index editables (entriesOf resolution.packages) name)) := by
    rw [hex]
    unfold specFinal
    rw [specFold_extras]
    rcases providedFor index editables (entriesOf resolution.packages) name with _ | _
    · rfl
    · rfl
  have hdiags : g.diagnostics =
      missedFor index editables resolution.pins (entriesOf resolution.packages) := by
    rw [hdg]
    unfold specFinal
    rw [specFold_diagnostics]
    rfl
  have hentry : (PubGrubPackage.package name (some x) none u, v)
      ∈ entriesOf resolution.packages := by
    rw [← extraEntriesFor_mem (entriesOf resolution.packages) name x v u, hone]
    simp
  refine ⟨?_, ?_, ?_⟩
  · intro hprov
    constructor
    · have hx : x ∈ providedFor index editables (entriesOf resolution.packages) name :=
        (providedFor_mem index editables _ name x).mpr ⟨v, u, hentry, hprov⟩
      rw [hextras]
      rcases hpf : providedFor index editables (entriesOf resolution.packages) name
        with _ | ⟨y, ys⟩
      · rw [hpf] at hx; simp at hx
      · rw [if_neg (by simp), Option.getD_some, ← hpf]
        exact hx
    · intro d hd dist hdist hname
      rw [hdiags] at hd
      unfold missedFor at hd
      obtain ⟨e, he, hfe⟩ := List.mem_filterMap.mp hd
      obtain ⟨n', x', u', v', dist', heq, hdq, hdn, hunprov⟩ :=
        diagFor_shape index editables resolution.pins hpc e d hfe
      rw [hdist] at hdq
      obtain ⟨hdisteq, hxeq⟩ : dist = dist' ∧ x = x' := by
        injection hdq with h1 h2
        exact ⟨h1.symm ▸ rfl, h2.symm ▸ rfl⟩
      have hn' : n' = name := by rw [← hdn, ← hdisteq, hname]
      rw [heq, hn', ← hxeq] at he
      have : (v', u') ∈ extraEntriesFor (entriesOf resolution.packages) name x :=
        (extraEntriesFor_mem _ name x v' u').mpr he
      rw [hone] at this
      obtain ⟨rfl, rfl⟩ : v' = v ∧ u' = u := by
        simpa using this
      rw [hn', ← hxeq] at hunprov
      rw [hunprov] at hprov
      exact Bool.noConfusion hprov
  · intro hprov
    refine ⟨?_, ?_, ?_⟩
    · rw [hdiags]
      unfold missedFor
      apply List.mem_filterMap.mpr
      refine ⟨(.package name (some x) none u, v), hentry, ?_⟩
      exact diagFor_unprovided index editables resolution.pins name x u v
        (hallok _ hentry) hprov
    · intro hx
      rw [hextras] at hx
      rcases hpf : providedFor index editables (entriesOf resolution.packages) name
        with _ | ⟨y, ys⟩
      · rw [hpf] at hx; simp at hx
      · rw [hpf, if_neg (by simp), Option.getD_some] at hx
        rw [← hpf] at hx
        obtain ⟨v', u', he', hprov'⟩ := (providedFor_mem index editables _ name x).mp hx
        have : (v', u') ∈ extraEntriesFor (entriesOf resolution.packages) name x :=
          (extraEntriesFor_mem _ name x v' u').mpr he'
        rw [hone] at this
        obtain ⟨rfl, rfl⟩ : v' = v ∧ u' = u := by simpa using this
        rw [hprov'] at hprov
        exact Bool.noConfusion hprov
    · rw [hn]
      unfold specFinal
      rw [specFold_nodesLen]
      simp [initState]
  · intro n' v' x' hed hmd hp
    simp only [entryOk]
    rw [hed]
    cases hmd' : index.distributions (PackageId.registry n' v') with
    | none => rw [hmd'] at hmd; exact Bool.noConfusion hmd
    | some md =>
      rw [show pidFor n' v' none = PackageId.registry n' v' from rfl, hmd']
      show (if x' ∈ md.providesExtras then true else (resolution.pins n' v').isSome) = true
      by_cases hx : x' ∈ md.providesExtras
      · rw [if_pos hx]
      · rw [if_neg hx]
        exact hp

/-- Witness for C4: `a==1` with the requested extra `x` that the metadata
does not provide. -/
theorem extra_folding_witness :
    (extraProvided idxC4 noEditables "a" 1 none "x" = true →
      "x" ∈ (((fromState idxC4 emptyPrefs noEditables resC4).toOption.getD
          emptyRG).extras "a").getD []
      ∧ ∀ d ∈ ((fromState idxC4 emptyPrefs noEditables resC4).toOption.getD
          emptyRG).diagnostics, ∀ dist, d = .missingExtra dist "x" → dist.nameOf ≠ "a")
    ∧ (extraProvided idxC4 noEditables "a" 1 none "x" = false →
      Diagnostic.missingExtra (specDist idxC4 noEditables resC4.pins "a" 1 none) "x"
          ∈ ((fromState idxC4 emptyPrefs noEditables resC4).toOption.getD emptyRG).diagnostics
      ∧ "x" ∉ (((fromState idxC4 emptyPrefs noEditables resC4).toOption.getD
          emptyRG).extras "a").getD []
      ∧ ((fromState idxC4 emptyPrefs noEditables resC4).toOption.getD
          emptyRG).petgraph.nodes.length = (crNames (entriesOf resC4.packages)).length)
    ∧ (∀ n' v' x', noEditables n' = none →
        (idxC4.distributions (PackageId.registry n' v')).isSome →
        (resC4.pins n' v').isSome →
        entryOk idxC4 noEditables resC4.pins (.package n' (some x') none none, v') = true) :=
  extra_folding idxC4 emptyPrefs noEditables resC4
    ((fromState idxC4 emptyPrefs noEditables resC4).toOption.getD emptyRG)
    (by rfl)
    (by
      intro n v d h
      unfold resC4 pinsAB at h
      simp only [] at h
      by_cases h1 : n = "a" ∧ v = 1
      · rw [if_pos h1] at h
        obtain rfl : Dist.registry "a" 1 = d := Option.some.inj h
        rw [h1.1]; rfl
      · rw [if_neg h1] at h
        by_cases h2 : n = "b" ∧ v = 2
        · rw [if_pos h2] at h
          obtain rfl : Dist.registry "b" 2 = d := Option.some.inj h
          rw [h2.1]; rfl
        · rw [if_neg h2] at h
          exact Option.noConfusion h)
    "a" "x" 1 none (by rfl)

end UvRes

namespace UvRes

theorem initState_invWf : invWf initState := by
  intro n i h
  exact Option.noConfusion h

theorem pinsAB_coherent : pinCoherent pinsAB := by
  intro n v d h
  unfold pinsAB at h
  by_cases h1 : n = "a" ∧ v = 1
  · rw [if_pos h1] at h
    obtain rfl : Dist.registry "a" 1 = d := Option.some.inj h
    rw [h1.1]; rfl
  · rw [if_neg h1] at h
    by_cases h2 : n = "b" ∧ v = 2
    · rw [if_pos h2] at h
      obtain rfl : Dist.registry "b" 2 = d := Option.some.inj h
      rw [h2.1]; rfl
    · rw [if_neg h2] at h
      exact Option.noConfusion h

/-- C8: in an input where a name is selected as a concrete-real identity
exactly once (and pins carry their own name), the graph holds exactly one
node carrying that name, and the `name → NodeIndex` map sends the name to
that node. -/
theorem node_uniqueness
    (index : InMemoryIndex) (preferences : Preferences) (editables : Editables)
    (resolution : Resolution) (g : ResolutionGraph)
    (hok : fromState index preferences editables resolution = .ok g)
    (hpc : pinCoherent resolution.pins)
    (name : PackageName)
    (hone : (crNames (entriesOf resolution.packages)).count name = 1) :
    (nodeNames g.petgraph).count name = 1
    ∧ ∃ st i,
        buildNodes index preferences editables resolution.pins resolution.packages = .ok st
        ∧ st.inverse name = some i
        ∧ (g.petgraph.nodes.get? i).map (fun nd => nd.dist.nameOf) = some name := by
  obtain ⟨-, -, -, -, hn, -⟩ :=
    fromState_components index preferences editables resolution g hok
  obtain ⟨st, gr, hb, ha, hg⟩ := fromState_ok_elim index preferences editables resolution g hok
  obtain ⟨-, hst⟩ := (buildNodes_ok_iff index preferences editables resolution.pins
    resolution.packages st).mp hb
  have hnames : nodeNames g.petgraph = crNames (entriesOf resolution.packages) := by
    rw [show nodeNames g.petgraph = g.petgraph.nodes.map (fun nd => nd.dist.nameOf) from rfl,
      hn]
    have := specFold_nodeNames index preferences editables resolution.pins hpc
      (entriesOf resolution.packages) initState
    unfold specFinal
    exact this
  constructor
  · rw [hnames]
    exact hone
  · have hmem : name ∈ crNames (entriesOf resolution.packages) := by
      have : 0 < (crNames (entriesOf resolution.packages)).count name := by omega
      exact List.count_pos_iff_mem.mp this
    have hsome : (st.inverse name).isSome = true := by
      rw [hst]
      exact specFold_inverse_some index preferences editables resolution.pins
        (entriesOf resolution.packages) initState name hmem
    obtain ⟨i, hi⟩ := Option.isSome_iff_exists.mp hsome
    have hwf : invWf st := by
      rw [hst]
      exact specFold_invWf index preferences editables resolution.pins hpc
        (entriesOf resolution.packages) initState initState_invWf
    obtain ⟨hlt, hname⟩ := hwf name i hi
    refine ⟨st, i, hb, hi, ?_⟩
    have : g.petgraph.nodes = st.g.nodes := by
      rw [hn, hst]
    rw [this]
    exact hname

/-- Witness for C8: the two-package input pins `a` exactly once. -/
theorem node_uniqueness_witness :
    (nodeNames ((fromState emptyIndex emptyPrefs noEditables resC1).toOption.getD
        emptyRG).petgraph).count "a" = 1
    ∧ ∃ st i,
        buildNodes emptyIndex emptyPrefs noEditables resC1.pins resC1.packages = .ok st
        ∧ st.inverse "a" = some i
        ∧ (((fromState emptyIndex emptyPrefs noEditables resC1).toOption.getD
            emptyRG).petgraph.nodes.get? i).map (fun nd => nd.dist.nameOf) = some "a" :=
  node_uniqueness emptyIndex emptyPrefs noEditables resC1
    ((fromState emptyIndex emptyPrefs noEditables resC1).toOption.getD emptyRG)
    (by rfl) (by exact pinsAB_coherent) "a" (by rfl)

end UvRes

namespace UvRes

theorem mem_insertParam (p q : MarkerParam) (s : List MarkerParam) :
    p ∈ insertParam s q ↔ p ∈ s ∨ p = q := by
  unfold insertParam
  by_cases hq : q ∈ s
  · rw [if_pos hq]
    constructor
    · exact Or.inl
    · rintro (h | rfl)
      · exact h
      · exact hq
  · rw [if_neg hq]
    simp

theorem nodup_insertParam (q : MarkerParam) (s : List MarkerParam) (h : s.Nodup) :
    (insertParam s q).Nodup := by
  unfold insertParam
  by_cases hq : q ∈ s
  · rw [if_pos hq]; exact h
  · rw [if_neg hq]
    simp [List.nodup_append, h, hq]

theorem mem_addValueParam (p : MarkerParam) (v : MarkerValue) (s : List MarkerParam) :
    p ∈ addValueParam v s ↔ p ∈ s ∨ valueHasParam p v = true := by
  cases v with
  | markerEnvVersion vv =>
    rw [show addValueParam (.markerEnvVersion vv) s = insertParam s (.version vv) from rfl,
      mem_insertParam]
    cases p with
    | version a => simp [valueHasParam]
    | string a => simp [valueHasParam]
  | markerEnvString vs =>
    rw [show addValueParam (.markerEnvString vs) s = insertParam s (.string vs) from rfl,
      mem_insertParam]
    cases p with
    | version a => simp [valueHasParam]
    | string a => simp [valueHasParam]
  | extra => simp [addValueParam, valueHasParam]
  | quotedString q => simp [addValueParam, valueHasParam]

theorem nodup_addValueParam (v : MarkerValue) (s : List MarkerParam) (h : s.Nodup) :
    (addValueParam v s).Nodup := by
  cases v with
  | markerEnvVersion vv => exact nodup_insertParam _ s h
  | markerEnvString vs => exact nodup_insertParam _ s h
  | extra => exact h
  | quotedString q => exact h

mutual

theorem mem_addParamsTree (p : MarkerParam) :
    ∀ (t : MarkerTree) (s : List MarkerParam),
    p ∈ addParamsTree t s ↔ p ∈ s ∨ paramOccurs p t = true
  | .expression e, s => by
    rw [show addParamsTree (.expression e) s =
        addValueParam e.rValue (addValueParam e.lValue s) from rfl]
    rw [mem_addValueParam, mem_addValueParam]
    rw [show paramOccurs p (.expression e) =
        (valueHasParam p e.lValue || valueHasParam p e.rValue) from rfl]
    simp [or_assoc]
  | .and l, s => by
    rw [show addParamsTree (.and l) s = addParamsList l s from rfl]
    rw [mem_addParamsList p l s]
    rfl
  | .or l, s => by
    rw [show addParamsTree (.or l) s = addParamsList l s from rfl]
    rw [mem_addParamsList p l s]
    rfl

theorem mem_addParamsList (p : MarkerParam) :
    ∀ (l : List MarkerTree) (s : List MarkerParam),
    p ∈ addParamsList l s ↔ p ∈ s ∨ paramOccursList p l = true
  | [], s => by
    simp [addParamsList, paramOccursList]
  | t :: ts, s => by
    rw [show addParamsList (t :: ts) s = addParamsList ts (addParamsTree t s) from rfl]
    rw [mem_addParamsList p ts (addParamsTree t s), mem_addParamsTree p t s]
    rw [show paramOccursList p (t :: ts) = (paramOccurs p t || paramOccursList p ts) from rfl]
    simp [or_assoc]

end

mutual

theorem nodup_addParamsTree :
    ∀ (t : MarkerTree) (s : List MarkerParam), s.Nodup → (addParamsTree t s).Nodup
  | .expression e, s, h =>
    nodup_addValueParam _ _ (nodup_addValueParam _ _ h)
  | .and l, s, h => nodup_addParamsList l s h
  | .or l, s, h => nodup_addParamsList l s h

theorem nodup_addParamsList :
    ∀ (l : List MarkerTree) (s : List MarkerParam), s.Nodup → (addParamsList l s).Nodup
  | [], s, h => h
  | t :: ts, s, h => nodup_addParamsList ts _ (nodup_addParamsTree t s h)

end

theorem mem_addReqParams (p : MarkerParam) :
    ∀ (reqs : List Requirement) (s : List MarkerParam),
    p ∈ addReqParams reqs s ↔
      p ∈ s ∨ ∃ m ∈ reqs.filterMap (fun q => q.marker), paramOccurs p m = true := by
  intro reqs
  induction reqs with
  | nil => intro s; simp [addReqParams]
  | cons req rest ih =>
    intro s
    rw [show addReqParams (req :: rest) s =
        addReqParams rest (match req.marker with
          | none => s
          | some m => addParamsTree m s) from rfl]
    rw [ih]
    cases hm : req.marker with
    | none => simp [List.filterMap_cons, hm]
    | some m =>
      rw [mem_addParamsTree]
      simp [List.filterMap_cons, hm, or_assoc]

theorem nodup_addReqParams :
    ∀ (reqs : List Requirement) (s : List MarkerParam), s.Nodup → (addReqParams reqs s).Nodup := by
  intro reqs
  induction reqs with
  | nil => intro s h; exact h
  | cons req rest ih =>
    intro s h
    rw [show addReqParams (req :: rest) s =
        addReqParams rest (match req.marker with
          | none => s
          | some m => addParamsTree m s) from rfl]
    apply ih
    cases req.marker with
    | none => exact h
    | some m => exact nodup_addParamsTree m s h

theorem nodeMarkersFold_shift (manifest : Manifest) (index : InMemoryIndex) :
    ∀ (nodes : List ResolvedNode) (acc : List MarkerTree),
    nodeMarkersFold manifest index nodes acc =
      (nodeMarkersFold manifest index nodes []).map (fun L => acc ++ L) := by
  intro nodes
  induction nodes with
  | nil => intro acc; simp [nodeMarkersFold, pure, Except.pure, Except.map]
  | cons node rest ih =>
    intro acc
    rw [nodeMarkersFold, List.foldlM_cons, nodeMarkersFold, List.foldlM_cons]
    cases hmd : index.distributions (pidOf node.dist) with
    | none => rfl
    | some md =>
      rw [exc_bind_ok, exc_bind_ok]
      show nodeMarkersFold manifest index rest
          (acc ++ (manifest.applyReqs md.requiresDist).filterMap (fun q => q.marker)) =
        Except.map (fun L => acc ++ L)
          (nodeMarkersFold manifest index rest
            ([] ++ (manifest.applyReqs md.requiresDist).filterMap (fun q => q.marker)))
      rw [ih, ih ([] ++ (manifest.applyReqs md.requiresDist).filterMap (fun q => q.marker))]
      cases nodeMarkersFold manifest index rest [] with
      | error msg => rfl
      | ok L => simp [Except.map]

theorem nodeParamsFold_spec (manifest : Manifest) (index : InMemoryIndex) :
    ∀ (nodes : List ResolvedNode) (s s' : List MarkerParam),
    nodeParamsFold manifest index nodes s = .ok s' →
    ∃ L, nodeMarkersFold manifest index nodes [] = .ok L
      ∧ (∀ p, p ∈ s' ↔ p ∈ s ∨ ∃ m ∈ L, paramOccurs p m = true)
      ∧ (s.Nodup → s'.Nodup) := by
  intro nodes
  induction nodes with
  | nil =>
    intro s s' h
    obtain rfl : s = s' := Except.ok.inj h
    exact ⟨[], rfl, by simp, fun h => h⟩
  | cons node rest ih =>
    intro s s' h
    rw [nodeParamsFold, List.foldlM_cons] at h
    cases hmd : index.distributions (pidOf node.dist) with
    | none => rw [hmd, exc_bind_err] at h; exact Except.noConfusion h
    | some md =>
      rw [hmd, exc_bind_ok] at h
      have h' : nodeParamsFold manifest index rest
          (addReqParams (manifest.applyReqs md.requiresDist) s) = .ok s' := h
      obtain ⟨L, hL, hmem, hnd⟩ := ih _ s' h'
      refine ⟨(manifest.applyReqs md.requiresDist).filterMap (fun q => q.marker) ++ L, ?_, ?_, ?_⟩
      · rw [nodeMarkersFold, List.foldlM_cons, hmd, exc_bind_ok]
        show nodeMarkersFold manifest index rest
            ([] ++ (manifest.applyReqs md.requiresDist).filterMap (fun q => q.marker)) =
          .ok ((manifest.applyReqs md.requiresDist).filterMap (fun q => q.marker) ++ L)
        rw [nodeMarkersFold_shift, hL]
        simp [Except.map]
      · intro p
        rw [hmem p, mem_addReqParams]
        constructor
        · rintro ((hp | ⟨m, hm, ho⟩) | ⟨m, hm, ho⟩)
          · exact Or.inl hp
          · exact Or.inr ⟨m, by simp [hm], ho⟩
          · exact Or.inr ⟨m, by simp [hm], ho⟩
        · rintro (hp | ⟨m, hm, ho⟩)
          · exact Or.inl (Or.inl hp)
          · rcases List.mem_append.mp hm with hm | hm
            · exact Or.inl (Or.inr ⟨m, hm, ho⟩)
            · exact Or.inr ⟨m, hm, ho⟩
      · intro hs
        exact hnd (nodup_addReqParams _ _ hs)

end UvRes

namespace UvRes

/-- C5: when `marker_tree` returns, its value is a conjunction of exactly
one equality conjunct `param == "<env value>"` per environment parameter
occurring in the walked markers (every node requirement's marker plus
every direct requirement's marker, editables included); `extra` and
quoted-string literals contribute no conjuncts. -/
theorem marker_soundness
    (r : ResolutionGraph) (manifest : Manifest) (index : InMemoryIndex)
    (env : MarkerEnvironment) (t : MarkerTree)
    (h : r.markerTree manifest index env = .ok t) :
    ∃ (L : List MarkerTree) (params : List MarkerParam),
      allSourceMarkers r manifest index = .ok L
      ∧ t = .and (params.map (mkConj env))
      ∧ params.Nodup
      ∧ (∀ p, p ∈ params ↔ ∃ m ∈ L, paramOccurs p m = true) := by
  unfold ResolutionGraph.markerTree at h
  cases hnp : nodeParamsFold manifest index r.petgraph.nodes [] with
  | error msg => rw [hnp, exc_bind_err] at h; exact Except.noConfusion h
  | ok s1 =>
    rw [hnp, exc_bind_ok] at h
    obtain rfl : _ = t := Except.ok.inj h
    obtain ⟨L, hL, hmem, hnd⟩ := nodeParamsFold_spec manifest index r.petgraph.nodes [] s1 hnp
    refine ⟨L ++ (manifest.applyReqs (directReqs manifest)).filterMap (fun q => q.marker),
      addReqParams (manifest.applyReqs (directReqs manifest)) s1, ?_, rfl, ?_, ?_⟩
    · unfold allSourceMarkers
      rw [hL, exc_bind_ok]
    · exact nodup_addReqParams _ _ (hnd (by simp))
    · intro p
      rw [mem_addReqParams, hmem p]
      simp only [List.not_mem_nil, false_or]
      constructor
      · rintro (⟨m, hm, ho⟩ | ⟨m, hm, ho⟩)
        · exact ⟨m, List.mem_append.mpr (Or.inl hm), ho⟩
        · exact ⟨m, List.mem_append.mpr (Or.inr hm), ho⟩
      · rintro ⟨m, hm, ho⟩
        rcases List.mem_append.mp hm with hm | hm
        · exact Or.inl ⟨m, hm, ho⟩
        · exact Or.inr ⟨m, hm, ho⟩

/-- Witness for C5: one registry node whose metadata requirement is
guarded by `sys_platform == "linux"`. -/
theorem marker_soundness_witness :
    ∃ (L : List MarkerTree) (params : List MarkerParam),
      allSourceMarkers
          ((fromState idxC5 emptyPrefs noEditables resC6).toOption.getD emptyRG)
          manifest0 idxC5 = .ok L
      ∧ (((fromState idxC5 emptyPrefs noEditables resC6).toOption.getD
            emptyRG).markerTree manifest0 idxC5 env0).toOption.getD (.and []) =
          .and (params.map (mkConj env0))
      ∧ params.Nodup
      ∧ (∀ p, p ∈ params ↔ ∃ m ∈ L, paramOccurs p m = true) :=
  marker_soundness
    ((fromState idxC5 emptyPrefs noEditables resC6).toOption.getD emptyRG)
    manifest0 idxC5 env0
    ((((fromState idxC5 emptyPrefs noEditables resC6).toOption.getD
        emptyRG).markerTree manifest0 idxC5 env0).toOption.getD (.and []))
    (by rfl)

end UvRes

namespace UvRes

theorem mem_dedupAdj (x : ExtraName) : ∀ l : List ExtraName, x ∈ dedupAdj l ↔ x ∈ l := by
  intro l
  induction l with
  | nil => simp [dedupAdj]
  | cons a rest ih =>
    cases rest with
    | nil => simp [dedupAdj]
    | cons b rest' =>
      by_cases hab : a = b
      · rw [show dedupAdj (a :: b :: rest') = dedupAdj (b :: rest') from by
          simp [dedupAdj, hab]]
        rw [ih]
        subst hab
        simp
      · rw [show dedupAdj (a :: b :: rest') = a :: dedupAdj (b :: rest') from by
          simp [dedupAdj, hab]]
        simp [ih]

theorem dedupAdj_sublist : ∀ l : List ExtraName, (dedupAdj l).Sublist l := by
  intro l
  induction l with
  | nil => simp [dedupAdj]
  | cons a rest ih =>
    cases rest with
    | nil => simp [dedupAdj]
    | cons b rest' =>
      by_cases hab : a = b
      · rw [show dedupAdj (a :: b :: rest') = dedupAdj (b :: rest') from by
          simp [dedupAdj, hab]]
        exact ih.cons a
      · rw [show dedupAdj (a :: b :: rest') = a :: dedupAdj (b :: rest') from by
          simp [dedupAdj, hab]]
        exact ih.cons₂ a

theorem dedupAdj_pairwise (l : List ExtraName) (h : l.Pairwise StrLE) :
    (dedupAdj l).Pairwise StrLE :=
  List.Pairwise.sublist (dedupAdj_sublist l) h

theorem dedupAdj_nodup : ∀ l : List ExtraName, l.Pairwise StrLE → (dedupAdj l).Nodup := by
  intro l
  induction l with
  | nil => intro _; simp [dedupAdj]
  | cons a rest ih =>
    intro h
    obtain ⟨ha, hrest⟩ := List.pairwise_cons.mp h
    cases rest with
    | nil => simp [dedupAdj]
    | cons b rest' =>
      by_cases hab : a = b
      · rw [show dedupAdj (a :: b :: rest') = dedupAdj (b :: rest') from by
          simp [dedupAdj, hab]]
        exact ih hrest
      · rw [show dedupAdj (a :: b :: rest') = a :: dedupAdj (b :: rest') from by
          simp [dedupAdj, hab]]
        rw [List.nodup_cons]
        refine ⟨?_, ih hrest⟩
        intro hmem
        rw [mem_dedupAdj] at hmem
        rcases List.mem_cons.mp hmem with rfl | hmem'
        · exact hab rfl
        · have h1 : strLe a b = true := ha b (by simp)
          have h2 : strLe b a = true := by
            obtain ⟨hb, -⟩ := List.pairwise_cons.mp hrest
            have h3 : strLe b a = true := hb a hmem'
            exact h3
          exact hab (strLe_antisymm a b h1 h2)

theorem sortedExtras_pairwise (es : List ExtraName) : (sortedExtras es).Pairwise StrLE := by
  unfold sortedExtras
  apply dedupAdj_pairwise
  exact @List.sorted_insertionSort _ StrLE _ ⟨strLe_total⟩ ⟨fun a b c => strLe_trans a b c⟩ es

theorem sortedExtras_nodup (es : List ExtraName) : (sortedExtras es).Nodup := by
  unfold sortedExtras
  apply dedupAdj_nodup
  exact @List.sorted_insertionSort _ StrLE _ ⟨strLe_total⟩ ⟨fun a b c => strLe_trans a b c⟩ es

theorem mem_sortedExtras (x : ExtraName) (es : List ExtraName) :
    x ∈ sortedExtras es ↔ x ∈ es := by
  unfold sortedExtras
  rw [mem_dedupAdj]
  exact (List.perm_insertionSort StrLE es).mem_iff

theorem sortedExtras_congr (es es' : List ExtraName) (hset : ∀ e, e ∈ es ↔ e ∈ es') :
    sortedExtras es = sortedExtras es' := by
  have hperm : (sortedExtras es).Perm (sortedExtras es') := by
    rw [List.perm_ext_iff_of_nodup (sortedExtras_nodup es) (sortedExtras_nodup es')]
    intro e
    rw [mem_sortedExtras, mem_sortedExtras]
    exact hset e
  exact @List.eq_of_perm_of_sorted _ StrLE ⟨fun a b => strLe_antisymm a b⟩ _ _
    hperm (sortedExtras_pairwise es) (sortedExtras_pairwise es')

/-- C10: the extras printed inside the brackets of a distribution line are
the side table's extras sorted lexicographically and deduplicated, so the
rendered line is the same for any order and multiplicity of the recorded
extras. -/
theorem extras_render_sorted_dedup
    (name : PackageName) (dist : Dist) (marker : Option MarkerTree)
    (es es' : List ExtraName)
    (h1 : es ≠ []) (h2 : es' ≠ [])
    (hset : ∀ e, e ∈ es ↔ e ∈ es') :
    (sortedExtras es).Pairwise StrLE
    ∧ (sortedExtras es).Nodup
    ∧ (∀ e, e ∈ sortedExtras es ↔ e ∈ es)
    ∧ (DNode.distributionN name dist es marker).verbatim =
        (DNode.distributionN name dist es' marker).verbatim
    ∧ (DNode.distributionN name dist es marker).verbatim =
        (match marker with
         | none => dist.nameOf ++ "[" ++ joinSep ", " (sortedExtras es) ++ "]"
             ++ dist.versionOrUrl.verbatim
         | some m => dist.nameOf ++ "[" ++ joinSep ", " (sortedExtras es) ++ "]"
             ++ dist.versionOrUrl.verbatim ++ " # " ++ m.render) := by
  have hcong := sortedExtras_congr es es' hset
  refine ⟨sortedExtras_pairwise es, sortedExtras_nodup es,
    fun e => mem_sortedExtras e es, ?_, ?_⟩
  · cases es with
    | nil => exact absurd rfl h1
    | cons a as =>
      cases es' with
      | nil => exact absurd rfl h2
      | cons b bs =>
        cases marker with
        | none =>
          show dist.nameOf ++ "[" ++ joinSep ", " (sortedExtras (a :: as)) ++ "]"
              ++ dist.versionOrUrl.verbatim =
            dist.nameOf ++ "[" ++ joinSep ", " (sortedExtras (b :: bs)) ++ "]"
              ++ dist.versionOrUrl.verbatim
          rw [hcong]
        | some m =>
          show dist.nameOf ++ "[" ++ joinSep ", " (sortedExtras (a :: as)) ++ "]"
              ++ dist.versionOrUrl.verbatim ++ " # " ++ m.render =
            dist.nameOf ++ "[" ++ joinSep ", " (sortedExtras (b :: bs)) ++ "]"
              ++ dist.versionOrUrl.verbatim ++ " # " ++ m.render
          rw [hcong]
  · cases es with
    | nil => exact absurd rfl h1
    | cons a as =>
      cases marker with
      | none => rfl
      | some m => rfl

/-- Witness for C10: `["y", "x", "y"]` and `["x", "y"]` print identically
as the sorted deduplicated `[x, y]`. -/
theorem extras_render_sorted_dedup_witness :
    (sortedExtras ["y", "x", "y"]).Pairwise StrLE
    ∧ (sortedExtras ["y", "x", "y"]).Nodup
    ∧ (∀ e, e ∈ sortedExtras ["y", "x", "y"] ↔ e ∈ (["y", "x", "y"] : List ExtraName))
    ∧ (DNode.distributionN "a" (.registry "a" 1) ["y", "x", "y"] none).verbatim =
        (DNode.distributionN "a" (.registry "a" 1) ["x", "y"] none).verbatim
    ∧ (DNode.distributionN "a" (.registry "a" 1) ["y", "x", "y"] none).verbatim =
        (match (none : Option MarkerTree) with
         | none => (Dist.registry "a" 1).nameOf ++ "["
             ++ joinSep ", " (sortedExtras ["y", "x", "y"]) ++ "]"
             ++ (Dist.registry "a" 1).versionOrUrl.verbatim
         | some m => (Dist.registry "a" 1).nameOf ++ "["
             ++ joinSep ", " (sortedExtras ["y", "x", "y"]) ++ "]"
             ++ (Dist.registry "a" 1).versionOrUrl.verbatim ++ " # " ++ m.render) :=
  extras_render_sorted_dedup "a" (.registry "a" 1) none ["y", "x", "y"] ["x", "y"]
    (by decide) (by decide) (by intro e; constructor <;> (intro h; simp at h; rcases h with h | h <;> simp [h]))

end UvRes

namespace UvRes

theorem collectNode_idx (r : ResolutionGraph) (o : DisplayOpts) (i : Nat)
    (node : ResolvedNode) (x : Nat × DNode)
    (h : collectNode r o i node = .ok (some x)) : x.1 = i := by
  simp only [collectNode] at h
  split at h
  · exact Option.noConfusion (Except.ok.inj h)
  · split at h
    · obtain rfl := Option.some.inj (Except.ok.inj h)
      rfl
    · split at h
      · exact Except.noConfusion h
      · split at h
        · obtain rfl := Option.some.inj (Except.ok.inj h)
          rfl
        · obtain rfl := Option.some.inj (Except.ok.inj h)
          rfl

theorem collectAux_pairwise (r : ResolutionGraph) (o : DisplayOpts) :
    ∀ (ivs : List (Nat × ResolvedNode)) (acc out : List (Nat × DNode)),
    collectAux r o ivs acc = .ok out →
    ivs.Pairwise (fun a b => a.1 < b.1) →
    (∀ x ∈ acc, ∀ y ∈ ivs, x.1 < y.1) →
    acc.Pairwise (fun a b => a.1 < b.1) →
    out.Pairwise (fun a b => a.1 < b.1) := by
  intro ivs
  induction ivs with
  | nil =>
    intro acc out h _ _ hacc
    obtain rfl := Except.ok.inj h
    exact hacc
  | cons iv rest ih =>
    intro acc out h hpw hlt hacc
    rw [collectAux] at h
    obtain ⟨hh, hrest'⟩ := List.pairwise_cons.mp hpw
    cases hcn : collectNode r o iv.1 iv.2 with
    | error msg => rw [hcn, exc_bind_err] at h; exact Except.noConfusion h
    | ok res =>
      rw [hcn, exc_bind_ok] at h
      cases res with
      | none =>
        exact ih acc out h hrest' (fun x hx y hy => hlt x hx y (by simp [hy])) hacc
      | some x =>
        have hxi : x.1 = iv.1 := collectNode_idx r o iv.1 iv.2 x hcn
        apply ih (acc ++ [x]) out h hrest'
        · intro z hz y hy
          rcases List.mem_append.mp hz with hz | hz
          · exact hlt z hz y (by simp [hy])
          · obtain rfl : z = x := by simpa using hz
            rw [hxi]
            exact hh y hy
        · rw [List.pairwise_append]
          refine ⟨hacc, by simp, ?_⟩
          intro z hz x' hx'
          obtain rfl : x' = x := by simpa using hx'
          rw [hxi]
          exact hlt z hz iv (by simp)

theorem enum_pairwise (nodes : List ResolvedNode) :
    nodes.enum.Pairwise (fun a b => a.1 < b.1) := by
  have h1 : (nodes.enum.map Prod.fst).Pairwise (· < ·) := by
    rw [List.enum_map_fst]
    exact List.pairwise_lt_range _
  exact (List.pairwise_map).mp h1

theorem pairwise_ne_eq {α : Type} {R : α → α → Prop} :
    ∀ {l : List α}, l.Pairwise R → ∀ a ∈ l, ∀ b ∈ l, ¬R a b → ¬R b a → a = b := by
  intro l
  induction l with
  | nil => intro _ a ha; simp at ha
  | cons x t ih =>
    intro hpw a ha b hb hnab hnba
    obtain ⟨hx, ht⟩ := List.pairwise_cons.mp hpw
    rcases List.mem_cons.mp ha with rfl | ha' <;> rcases List.mem_cons.mp hb with rfl | hb'
    · rfl
    · exact absurd (hx b hb') hnab
    · exact absurd (hx a ha') hnba
    · exact ih ht a ha' b hb' hnab hnba

theorem entryLe_isEd (a b : Nat × DNode) (h : EntryLE a b)
    (ha : a.2.keyOf.isEd = false) : b.2.keyOf.isEd = false := by
  unfold EntryLE entryLeB at h
  by_cases hk : a.2.keyOf = b.2.keyOf
  · rw [← hk]; exact ha
  · rw [if_neg hk] at h
    cases hB : b.2.keyOf with
    | editableK s =>
      cases hA : a.2.keyOf with
      | editableK s2 => rw [hA] at ha; simp [NodeKeyT.isEd] at ha
      | distributionK n =>
        rw [hA, hB] at h
        simp [keyLeB] at h
    | distributionK n => rfl

theorem entryLe_strLe_same_kind (a b : Nat × DNode) (h : EntryLE a b)
    (hk : a.2.keyOf.isEd = b.2.keyOf.isEd) :
    StrLE a.2.keyOf.keyStr b.2.keyOf.keyStr := by
  unfold EntryLE entryLeB at h
  by_cases he : a.2.keyOf = b.2.keyOf
  · rw [he]
    exact strLe_refl _
  · rw [if_neg he] at h
    cases hA : a.2.keyOf with
    | editableK s =>
      cases hB : b.2.keyOf with
      | editableK s2 =>
        rw [hA, hB] at h
        exact h
      | distributionK n => rw [hA, hB] at hk; simp [NodeKeyT.isEd] at hk
    | distributionK n =>
      cases hB : b.2.keyOf with
      | editableK s2 => rw [hA, hB] at hk; simp [NodeKeyT.isEd] at hk
      | distributionK n2 =>
        rw [hA, hB] at h
        exact h

/-- C9: the rendered sequence is the collected nodes sorted by the total
key `(NodeKey, insertion index)`: the output is exactly that sorted
sequence; editable keys all precede distribution keys; the editable block
is ordered by verbatim string and the distribution block by package name;
and any `EntryLE`-sorted permutation of the collected nodes equals it, so
the output is deterministic for a fixed graph. -/
theorem render_order_deterministic
    (r : ResolutionGraph) (o : DisplayOpts) (l : List (Nat × DNode))
    (hcol : collectNodes r o = .ok l) :
    displayFmt r o = .ok (String.join ((sortNodes l).map (renderNode r o)))
    ∧ (sortNodes l).Perm l
    ∧ (sortNodes l).Pairwise EntryLE
    ∧ (sortNodes l).Pairwise
        (fun a b => a.2.keyOf.isEd = false → b.2.keyOf.isEd = false)
    ∧ (((sortNodes l).filter (fun a => a.2.keyOf.isEd)).map
        (fun a => a.2.keyOf.keyStr)).Pairwise StrLE
    ∧ (((sortNodes l).filter (fun a => !a.2.keyOf.isEd)).map
        (fun a => a.2.keyOf.keyStr)).Pairwise StrLE
    ∧ (∀ l', l'.Perm l → l'.Pairwise EntryLE → l' = sortNodes l) := by
  have hperm : (sortNodes l).Perm l := List.perm_insertionSort EntryLE l
  have hsorted : (sortNodes l).Pairwise EntryLE :=
    @List.sorted_insertionSort _ EntryLE _ ⟨entryLeB_total⟩
      ⟨fun a b c => entryLeB_trans a b c⟩ l
  have hidx : l.Pairwise (fun a b => a.1 < b.1) :=
    collectAux_pairwise r o r.petgraph.nodes.enum [] l hcol (enum_pairwise _)
      (by simp) (by simp)
  have hanti : ∀ a ∈ l, ∀ b ∈ l, EntryLE a b → EntryLE b a → a = b := by
    intro a ha b hb h1 h2
    obtain ⟨hkeq, hieq⟩ := entryLeB_antisymm_of_ne_idx a b h1 h2
    exact pairwise_ne_eq hidx a ha b hb (by omega) (by omega)
  refine ⟨?_, hperm, hsorted, ?_, ?_, ?_, ?_⟩
  · unfold displayFmt collectNodes at *
    rw [hcol, exc_bind_ok]
  · exact hsorted.imp (fun {a b} h ha => entryLe_isEd a b h ha)
  · have h1 : ((sortNodes l).filter (fun a => a.2.keyOf.isEd)).Pairwise EntryLE :=
      List.Pairwise.filter _ hsorted
    have h2 : ((sortNodes l).filter (fun a => a.2.keyOf.isEd)).Pairwise
        (fun a b => StrLE a.2.keyOf.keyStr b.2.keyOf.keyStr) := by
      refine h1.imp_of_mem ?_
      intro a b ha hb hab
      have hA : a.2.keyOf.isEd = true := by simpa using (List.mem_filter.mp ha).2
      have hB : b.2.keyOf.isEd = true := by simpa using (List.mem_filter.mp hb).2
      exact entryLe_strLe_same_kind a b hab (hA.trans hB.symm)
    exact List.Pairwise.map _ (fun a b h => h) h2
  · have h1 : ((sortNodes l).filter (fun a => !a.2.keyOf.isEd)).Pairwise EntryLE :=
      List.Pairwise.filter _ hsorted
    have h2 : ((sortNodes l).filter (fun a => !a.2.keyOf.isEd)).Pairwise
        (fun a b => StrLE a.2.keyOf.keyStr b.2.keyOf.keyStr) := by
      refine h1.imp_of_mem ?_
      intro a b ha hb hab
      have hA : a.2.keyOf.isEd = false := by
        have := (List.mem_filter.mp ha).2
        simpa using this
      have hB : b.2.keyOf.isEd = false := by
        have := (List.mem_filter.mp hb).2
        simpa using this
      exact entryLe_strLe_same_kind a b hab (hA.trans hB.symm)
    exact List.Pairwise.map _ (fun a b h => h) h2
  · intro l' hp hs
    have hanti' : ∀ a ∈ l', ∀ b ∈ l', EntryLE a b → EntryLE b a → a = b := by
      intro a ha b hb
      exact hanti a (hp.mem_iff.mp ha) b (hp.mem_iff.mp hb)
    exact sorted_perm_eq_of_mem_antisymm hanti' (hp.trans hperm.symm) hs hsorted

/-- Witness for C9: one editable and two registry packages. -/
theorem render_order_deterministic_witness :
    displayFmt ((fromState emptyIndex emptyPrefs edsC9 resC9).toOption.getD emptyRG)
        defaultOpts =
      .ok (String.join ((sortNodes ((collectNodes
          ((fromState emptyIndex emptyPrefs edsC9 resC9).toOption.getD emptyRG)
          defaultOpts).toOption.getD [])).map
        (renderNode ((fromState emptyIndex emptyPrefs edsC9 resC9).toOption.getD emptyRG)
          defaultOpts)))
    ∧ (sortNodes ((collectNodes
          ((fromState emptyIndex emptyPrefs edsC9 resC9).toOption.getD emptyRG)
          defaultOpts).toOption.getD [])).Perm
        ((collectNodes ((fromState emptyIndex emptyPrefs edsC9 resC9).toOption.getD emptyRG)
          defaultOpts).toOption.getD [])
    ∧ (sortNodes ((collectNodes
          ((fromState emptyIndex emptyPrefs edsC9 resC9).toOption.getD emptyRG)
          defaultOpts).toOption.getD [])).Pairwise EntryLE
    ∧ (sortNodes ((collectNodes
          ((fromState emptyIndex emptyPrefs edsC9 resC9).toOption.getD emptyRG)
          defaultOpts).toOption.getD [])).Pairwise
        (fun a b => a.2.keyOf.isEd = false → b.2.keyOf.isEd = false)
    ∧ (((sortNodes ((collectNodes
          ((fromState emptyIndex emptyPrefs edsC9 resC9).toOption.getD emptyRG)
          defaultOpts).toOption.getD [])).filter (fun a => a.2.keyOf.isEd)).map
        (fun a => a.2.keyOf.keyStr)).Pairwise StrLE
    ∧ (((sortNodes ((collectNodes
          ((fromState emptyIndex emptyPrefs edsC9 resC9).toOption.getD emptyRG)
          defaultOpts).toOption.getD [])).filter (fun a => !a.2.keyOf.isEd)).map
        (fun a => a.2.keyOf.keyStr)).Pairwise StrLE
    ∧ (∀ l', l'.Perm ((collectNodes
          ((fromState emptyIndex emptyPrefs edsC9 resC9).toOption.getD emptyRG)
          defaultOpts).toOption.getD []) → l'.Pairwise EntryLE →
        l' = sortNodes ((collectNodes
          ((fromState emptyIndex emptyPrefs edsC9 resC9).toOption.getD emptyRG)
          defaultOpts).toOption.getD [])) :=
  render_order_deterministic
    ((fromState emptyIndex emptyPrefs edsC9 resC9).toOption.getD emptyRG)
    defaultOpts
    ((collectNodes ((fromState emptyIndex emptyPrefs edsC9 resC9).toOption.getD emptyRG)
        defaultOpts).toOption.getD [])
    (by rfl)

end UvRes
